import Mathlib

set_option maxHeartbeats 1000000

/-!
Shallow embedding of the tiny high-level-synthesis compiler in
`src/artiq/gateware/wrpll/thls.py`: the instruction model (`Isn` subclasses),
the IR builder (`ASTCompiler`), the cycle-driven list scheduler (`Scheduler`)
and the instruction encoder (`Processor.encode_instruction`).

Python dictionaries are modelled as association lists whose most recent
binding is consed at the front (`List.lookup` returns the first, i.e. latest,
binding); Python sets of register indices are modelled as duplicate-free
`List Nat`; Python exceptions are modelled with `Except Err`.  The scheduler's
unbounded `while` loop is modelled with an explicit fuel parameter:
`scheduleLoop fuel s = .ok none` means the loop was still running after
`fuel` iterations.
-/

/-- The opcode vocabulary (`NopIsn` .. `OutputIsn`, by their `opcode` field). -/
inductive Opcode where
  | nop
  | add
  | sub
  | mul
  | copy
  | input
  | output
deriving DecidableEq

/-- The numeric `opcode` class attribute of each `Isn` subclass. -/
def Opcode.code : Opcode → Nat
  | .nop => 0
  | .add => 1
  | .sub => 2
  | .mul => 3
  | .copy => 4
  | .input => 5
  | .output => 6

/-- The generic instruction record (`Isn.__init__`): opcode, optional
immediate, input operand references and output operand references.  Negative
references are virtual (SSA) registers; non-negative ones address the shared
data/register memory. -/
structure Isn where
  opcode : Opcode
  immediate : Option Int := none
  inputs : List Int := []
  outputs : List Int := []
deriving DecidableEq

/-- Python exceptions that the compiler pipeline can raise:
`NotImplementedError` (the spec's UnsupportedConstruct), `KeyError` (the
spec's UnknownName, from `self.names[node.id]`), `AssertionError` (failed
`assert`) and `ValueError` (`max()`/`min()` of an empty collection). -/
inductive Err where
  | notImplemented
  | keyError
  | assertionError
  | valueError
deriving DecidableEq

/-! ### IR builder (`ASTCompiler`) -/

/-- The mutable state of `ASTCompiler`. -/
structure ASTState where
  program : List Isn := []
  data : List Int := []
  next_ssa_reg : Int := -1
  constants : List (Int × Nat) := []
  names : List (String × Int) := []
  globals : List (String × Nat) := []
deriving DecidableEq

/-- `ASTCompiler.get_ssa_reg`. -/
def get_ssa_reg (s : ASTState) : Int × ASTState :=
  (s.next_ssa_reg, { s with next_ssa_reg := s.next_ssa_reg - 1 })

/-- `ASTCompiler.add_global`: reserve the next data-table slot for a
declared global. -/
def add_global (s : ASTState) (name : String) : ASTState :=
  let r := s.data.length
  { s with
      data := s.data ++ [0],
      names := (name, (r : Int)) :: s.names,
      globals := (name, r) :: s.globals }

/-- `ASTCompiler.input`: bind the function parameter to a fresh virtual
register via an explicit input instruction. -/
def astInput (s : ASTState) (name : String) : ASTState :=
  let ts := get_ssa_reg s
  { ts.2 with
      program := ts.2.program ++ [{ opcode := .input, outputs := [ts.1] }],
      names := (name, ts.1) :: ts.2.names }

/-- The binary operators `ASTCompiler.emit` dispatches on
(`ast.Add`/`ast.Sub`/`ast.Mult`); `unsupportedOp` stands for any other
`ast.BinOp` operator, which raises `NotImplementedError`. -/
inductive BinOpKind where
  | add
  | sub
  | mult
  | unsupportedOp
deriving DecidableEq

/-- An assignment target: `ast.Name`, or any other target node (for which
the `assert isinstance(target, ast.Name)` fails). -/
inductive AssignTarget where
  | name (id : String)
  | unsupportedTarget
deriving DecidableEq

/-- Expression nodes of the input tree handled by `ASTCompiler.emit`;
`unsupportedExpr` stands for any expression node outside the vocabulary
(e.g. an `ast.Call`), which hits the final `raise NotImplementedError`. -/
inductive Expr where
  | binop (op : BinOpKind) (left right : Expr)
  | num (n : Int)
  | name (id : String)
  | unsupportedExpr
deriving DecidableEq

/-- Statement nodes of the input tree handled by `ASTCompiler.emit`;
`unsupportedStmt` stands for any statement node outside the vocabulary
(e.g. a loop, conditional or `ast.If`), which hits the final
`raise NotImplementedError`. -/
inductive Stmt where
  | assign (targets : List AssignTarget) (value : Expr)
  | ret (value : Expr)
  | globalDecl (names : List String)
  | unsupportedStmt
deriving DecidableEq

/-- Operator dispatch in the `ast.BinOp` branch of `ASTCompiler.emit`. -/
def binOpcode : BinOpKind → Option Opcode
  | .add => some .add
  | .sub => some .sub
  | .mult => some .mul
  | .unsupportedOp => none

/-- The expression part of `ASTCompiler.emit` (`ast.BinOp`, `ast.Num`,
`ast.Name` and the fallthrough `raise NotImplementedError`). -/
def emitExpr : Expr → ASTState → Except Err (Int × ASTState)
  | .binop op left right, s =>
    match emitExpr left s with
    | .error e => .error e
    | .ok ls =>
      match emitExpr right ls.2 with
      | .error e => .error e
      | .ok rs =>
        match binOpcode op with
        | none => .error .notImplemented
        | some opc =>
          let os := get_ssa_reg rs.2
          .ok (os.1, { os.2 with
            program := os.2.program ++
              [{ opcode := opc, inputs := [ls.1, rs.1], outputs := [os.1] }] })
  | .num n, s =>
    match s.constants.lookup n with
    | some r => .ok ((r : Int), s)
    | none =>
      let r := s.data.length
      .ok ((r : Int), { s with data := s.data ++ [n], constants := (n, r) :: s.constants })
  | .name id, s =>
    match s.names.lookup id with
    | some r => .ok (r, s)
    | none => .error .keyError
  | .unsupportedExpr, _ => .error .notImplemented

/-- The target-binding loop of the `ast.Assign` branch:
`for target in node.targets: assert isinstance(target, ast.Name);
self.names[target.id] = output`. -/
def bindTargets (output : Int) : List AssignTarget → ASTState → Except Err ASTState
  | [], s => .ok s
  | .name id :: rest, s => bindTargets output rest { s with names := (id, output) :: s.names }
  | .unsupportedTarget :: _, _ => .error .assertionError

/-- The statement part of `ASTCompiler.emit` (`ast.Assign`, `ast.Return`,
`ast.Global` and the fallthrough `raise NotImplementedError`). -/
def emitStmt : Stmt → ASTState → Except Err ASTState
  | .assign targets value, s =>
    match emitExpr value s with
    | .error e => .error e
    | .ok vs => bindTargets vs.1 targets vs.2
  | .ret value, s =>
    match emitExpr value s with
    | .error e => .error e
    | .ok vs =>
      .ok { vs.2 with
        program := vs.2.program ++ [{ opcode := .output, inputs := [vs.1], outputs := [] }] }
  | .globalDecl _, s => .ok s
  | .unsupportedStmt, _ => .error .notImplemented

/-- The statement loop of `compile`: emit each statement, stopping right
after the first `ast.Return`. -/
def emitBody : List Stmt → ASTState → Except Err ASTState
  | [], s => .ok s
  | stmt :: rest, s =>
    match emitStmt stmt s with
    | .error e => .error e
    | .ok s' =>
      match stmt with
      | .ret _ => .ok s'
      | _ => emitBody rest s'

/-- The first pass of `compile`: every name of every `ast.Global` statement
gets a reserved data-table slot. -/
def declareGlobals (body : List Stmt) (s : ASTState) : ASTState :=
  body.foldl
    (fun s stmt =>
      match stmt with
      | .globalDecl names => names.foldl add_global s
      | _ => s)
    s

/-- The IR-building part of `compile`: declare the globals, bind the single
parameter via an input instruction, then emit the body up to the first
return. -/
def buildIR (arg : String) (body : List Stmt) : Except Err ASTState :=
  emitBody body (astInput (declareGlobals body {}) arg)

/-! ### Target model (`Processor`) -/

/-- The immutable parameters of `Processor` (the sizing fields
`program_rom_size`, `data_ram_size`, `reg_bits` are computed later by
`CompiledProgram.dimension_memories` and passed separately). -/
structure Processor where
  data_width : Nat := 32
  multiplier_stages : Nat := 2
deriving DecidableEq

/-- `Processor.opcode_bits` (fixed at 3). -/
def opcode_bits : Nat := 3

/-- `Processor.get_instruction_latency`; the dictionary has no entry for
`NopIsn` and `OutputIsn` (looking those up raises `KeyError`, hence
`none`). -/
def get_instruction_latency (p : Processor) (isn : Isn) : Option Nat :=
  match isn.opcode with
  | .add => some 2
  | .sub => some 2
  | .mul => some (1 + p.multiplier_stages)
  | .copy => some 1
  | .input => some 1
  | _ => none

/-! ### Scheduler -/

/-- The mutable state of `Scheduler`.  `exits` is the Exit Map: an
association list from retirement cycle to (virtual register, allocated
physical register), most recent entry first.  `used_registers` is a
duplicate-free list modelling the Python set. -/
structure SchedState where
  processor : Processor
  reserved_data : Nat
  used_registers : List Nat
  exits : List (Nat × Int × Nat)
  remaining : List Isn
  output : List Isn
deriving DecidableEq

/-- `Scheduler.__init__`. -/
def initScheduler (p : Processor) (reserved_data : Nat) (program : List Isn) : SchedState :=
  { processor := p
    reserved_data := reserved_data
    used_registers := List.range reserved_data
    exits := []
    remaining := program
    output := [] }

/-- Set insertion for the used-register set. -/
def usedInsert (used : List Nat) (r : Nat) : List Nat :=
  if r ∈ used then used else r :: used

/-- `Scheduler.allocate_register`: the lowest register index not in use
(`min(set(range(max(used) + 2)) - used)`); `max` of an empty set raises
`ValueError`. -/
def allocate_register (s : SchedState) : Except Err (Nat × SchedState) :=
  match s.used_registers.max? with
  | none => .error .valueError
  | some m =>
    match ((List.range (m + 2)).filter (fun x => !(s.used_registers.contains x))).min? with
    | none => .error .valueError
    | some r => .ok (r, { s with used_registers := usedInsert s.used_registers r })

/-- `Scheduler.free_register` (with its `assert r >= self.reserved_data`). -/
def free_register (s : SchedState) (r : Int) : Except Err SchedState :=
  if (s.reserved_data : Int) ≤ r then
    .ok { s with used_registers := s.used_registers.erase r.toNat }
  else .error .assertionError

/-- The inner scan of `Scheduler.find_inputs`: look for the first cycle
`i < cycle` whose Exit Map entry produces virtual register `inp`, returning
the physical register written there. -/
def findExit (exits : List (Nat × Int × Nat)) (cycle : Nat) (inp : Int) : Option Nat :=
  (List.range cycle).findSome? fun i =>
    match exits.lookup i with
    | some rrm => if rrm.1 = inp then some rrm.2 else none
    | none => none

/-- `Scheduler.find_inputs`: map each input operand to a concrete register,
or `none` if some virtual input has not retired before `cycle`. -/
def find_inputs (exits : List (Nat × Int × Nat)) (cycle : Nat) : List Int → Option (List Int)
  | [] => some []
  | inp :: rest =>
    if 0 ≤ inp then
      (find_inputs exits cycle rest).map (fun ms => inp :: ms)
    else
      match findExit exits cycle inp with
      | some rm => (find_inputs exits cycle rest).map (fun ms => (rm : Int) :: ms)
      | none => none

/-- The `can_free` test of `Scheduler.schedule_one`: a virtual input whose
register may be recycled because no remaining instruction reads it. -/
def canFree (remaining : List Isn) (inp : Int) : Prop :=
  inp < 0 ∧ ∀ risn ∈ remaining, ∀ rinp ∈ risn.inputs, inp ≠ rinp

instance (remaining : List Isn) (inp : Int) : Decidable (canFree remaining inp) := by
  unfold canFree; infer_instance

/-- The eager-freeing loop of `Scheduler.schedule_one`
(`for inp, minp in zip(isn.inputs, mapped_inputs)`). -/
def freeLoop : List (Int × Int) → SchedState → Except Err SchedState
  | [], t => .ok t
  | pr :: rest, t =>
    if canFree t.remaining pr.1 then
      match free_register t pr.2 with
      | .error e => .error e
      | .ok t' => freeLoop rest t'
    else freeLoop rest t

/-- `self.remaining.remove(isn)` followed by the eager-freeing loop. -/
def removeAndFree (s : SchedState) (isn : Isn) (mapped : List Int) : Except Err SchedState :=
  freeLoop (isn.inputs.zip mapped) { s with remaining := s.remaining.erase isn }

/-- The rewritten instruction the scheduler emits:
`isn.__class__(immediate=isn.immediate, inputs=mapped_inputs)` (note that
the outputs list of the scheduled copy is empty). -/
def mkScheduled (isn : Isn) (mapped : List Int) : Isn :=
  { opcode := isn.opcode, immediate := isn.immediate, inputs := mapped, outputs := [] }

/-- `NopIsn()`. -/
def nopIsn : Isn := { opcode := .nop }

/-- `Scheduler.schedule_one`: `.ok none` models a `False` return (the
instruction is not ready or its retirement cycle is already claimed, state
untouched); `.ok (some s')` models a `True` return with the updated state;
`.error` models an exception escaping. -/
def schedule_one (s : SchedState) (isn : Isn) : Except Err (Option SchedState) :=
  match find_inputs s.exits s.output.length isn.inputs with
  | none => .ok none
  | some mapped =>
    match isn.outputs with
    | [] =>
      match removeAndFree s isn mapped with
      | .error e => .error e
      | .ok t => .ok (some { t with output := t.output ++ [mkScheduled isn mapped] })
    | o :: outRest =>
      match get_instruction_latency s.processor isn with
      | none => .error .keyError
      | some latency =>
        if (s.exits.lookup (s.output.length + latency)).isSome then .ok none
        else
          match removeAndFree s isn mapped with
          | .error e => .error e
          | .ok t =>
            match outRest with
            | [] =>
              match allocate_register t with
              | .error e => .error e
              | .ok rt =>
                .ok (some { rt.2 with
                  exits := (s.output.length + latency, o, rt.1) :: rt.2.exits,
                  output := rt.2.output ++ [mkScheduled isn mapped] })
            | _ => .error .assertionError

/-- The inner `for isn in self.remaining` loop of `Scheduler.schedule`:
try each remaining instruction in order, stopping at the first success. -/
def tryRemaining (s : SchedState) : List Isn → Except Err (Option SchedState)
  | [] => .ok none
  | isn :: rest =>
    match schedule_one s isn with
    | .error e => .error e
    | .ok (some s') => .ok (some s')
    | .ok none => tryRemaining s rest

/-- One iteration of the `while self.remaining` loop: schedule the first
ready instruction, or emit a no-op for the current cycle. -/
def stepCycle (s : SchedState) : Except Err SchedState :=
  match tryRemaining s s.remaining with
  | .error e => .error e
  | .ok (some s') => .ok s'
  | .ok none => .ok { s with output := s.output ++ [nopIsn] }

/-- The `while self.remaining` loop of `Scheduler.schedule`, with fuel.
`.ok none` means the loop was still running after `fuel` iterations. -/
def scheduleLoop : Nat → SchedState → Except Err (Option SchedState)
  | 0, s => if s.remaining.isEmpty then .ok (some s) else .ok none
  | fuel + 1, s =>
    if s.remaining.isEmpty then .ok (some s)
    else
      match stepCycle s with
      | .error e => .error e
      | .ok s' => scheduleLoop fuel s'

/-- The final padding of `Scheduler.schedule`:
`self.output += [NopIsn()]*(max(self.exits.keys()) - len(self.output) + 1)`
(`max` of an empty Exit Map raises `ValueError`; a negative repeat count
yields the empty list, like truncated subtraction). -/
def schedulePad (s : SchedState) : Except Err SchedState :=
  match (s.exits.map Prod.fst).max? with
  | none => .error .valueError
  | some m =>
    .ok { s with output := s.output ++ List.replicate (m + 1 - s.output.length) nopIsn }

/-- `Scheduler.schedule`: run the loop, then pad. -/
def runSchedule (fuel : Nat) (s : SchedState) : Except Err (Option SchedState) :=
  match scheduleLoop fuel s with
  | .error e => .error e
  | .ok none => .ok none
  | .ok (some s') =>
    match schedulePad s' with
    | .error e => .error e
    | .ok s'' => .ok (some s'')

/-! ### Compiled program and encoder -/

/-- `CompiledProgram` (its `exits` field keeps only the physical register
per retirement cycle, as in `compile`). -/
structure CompiledProgram where
  program : List Isn
  exits : List (Nat × Nat)
  data : List Int
  glbs : List (String × Nat)
deriving DecidableEq

/-- The whole `compile` pipeline on an already-parsed tree: IR building,
scheduling (with fuel), then the `max_reg` computation and data padding. -/
def compileProgram (p : Processor) (fuel : Nat) (arg : String) (body : List Stmt) :
    Except Err (Option CompiledProgram) :=
  match buildIR arg body with
  | .error e => .error e
  | .ok ac =>
    match runSchedule fuel (initScheduler p ac.data.length ac.program) with
    | .error e => .error e
    | .ok none => .ok none
    | .ok (some sch) =>
      match (sch.output.map (fun isn => (isn.inputs ++ [(0 : Int)]).max?.getD 0)).max?,
            (sch.exits.map (fun e => e.2.2)).max? with
      | some mi, some me =>
        let max_reg : Int := max mi (me : Int)
        .ok (some
          { program := sch.output
            exits := sch.exits.map (fun e => (e.1, e.2.2))
            data := ac.data ++ List.replicate (max_reg + 1 - (ac.data.length : Int)).toNat 0
            glbs := ac.globals })
      | _, _ => .error .valueError

/-- The bit-packing loop of `Processor.encode_instruction`:
`for value, bits in fields: r <<= bits; r |= value`. -/
def packFields (fields : List (Nat × Nat)) : Nat :=
  fields.foldl (fun r vb => (r <<< vb.2) ||| vb.1) 0

/-- The first operand field of `Processor.encode_instruction`: the
immediate when present, else the first input (0 when absent).  Operands
are non-negative at encoding time (they are data-table slots or allocated
physical registers). -/
def isnR0 (isn : Isn) : Nat :=
  match isn.immediate with
  | some imm => imm.toNat
  | none => (isn.inputs.getD 0 0).toNat

/-- The second operand field of `Processor.encode_instruction`. -/
def isnR1 (isn : Isn) : Nat :=
  match isn.immediate with
  | some _ => (isn.inputs.getD 0 0).toNat
  | none => (isn.inputs.getD 1 0).toNat

/-- `Processor.encode_instruction`: pack `(exit, r1, r0, opcode)` in that
shift order, so that `exit` ends up in the most significant bits and the
opcode in the least significant bits (the decoder in
`ProcessorImpl.__init__` reads the opcode from the lowest 3 bits). -/
def encode_instruction (reg_bits : Nat) (isn : Isn) (exit : Nat) : Nat :=
  packFields [(exit, reg_bits), (isnR1 isn, reg_bits), (isnR0 isn, reg_bits),
              (isn.opcode.code, opcode_bits)]

/-- Modelled from the claim (C4): the same field extraction, but packed
in the order the claim states — opcode (3 bits) as the most significant
field, then the first input/immediate, then the second input, then the
retirement-target register as the least significant field.  Used only to
compare the claimed layout with `encode_instruction`. -/
def encode_instruction_claimed (reg_bits : Nat) (isn : Isn) (exit : Nat) : Nat :=
  packFields [(isn.opcode.code, opcode_bits), (isnR0 isn, reg_bits), (isnR1 isn, reg_bits),
              (exit, reg_bits)]

/-- `CompiledProgram.encode`: one word per scheduled cycle, the exit field
taken from the Exit Map at that cycle (0 when no instruction retires
there). -/
def CompiledProgram.encodeWords (cp : CompiledProgram) (reg_bits : Nat) : List Nat :=
  (List.range cp.program.length).map fun i =>
    encode_instruction reg_bits (cp.program.getD i nopIsn) ((cp.exits.lookup i).getD 0)

deriving instance DecidableEq for Except

/-! ### Concrete input programs used as witnesses and counterexamples -/

/-- The function parameter name used in the concrete examples. -/
def argX : String := "x"

def nameA : String := "a"

def nameB : String := "b"

def nameG : String := "g"

/-- The body of `simple_test`: `a = 5 + 3; return a*4`. -/
def bodySimple : List Stmt :=
  [.assign [.name nameA] (.binop .add (.num 5) (.num 3)),
   .ret (.binop .mult (.name nameA) (.num 4))]

/-- The body of `global g; g = x + 1; return g + g`. -/
def bodyGlobal : List Stmt :=
  [.globalDecl [nameG],
   .assign [.name nameG] (.binop .add (.name argX) (.num 1)),
   .ret (.binop .add (.name nameG) (.name nameG))]

/-- The body of the identity function `return x` (no globals, no literals). -/
def bodyId : List Stmt := [.ret (.name argX)]

/-- A multi-target assignment whose targets are all simple names:
`a = b = 1; return a`. -/
def bodyMulti : List Stmt :=
  [.assign [.name nameA, .name nameB] (.num 1),
   .ret (.name nameA)]

/-- `Processor()` with its default parameters (multiply latency `1 + 2`). -/
def procDefault : Processor := {}

/-- The IR of `bodyId` as built by `buildIR` (used to restate the C10 run). -/
def astId : ASTState :=
  { program := [{ opcode := .input, outputs := [-1] }, { opcode := .output, inputs := [-1] }],
    data := [], next_ssa_reg := -2, constants := [], names := [(argX, -1)], globals := [] }

/-- The multiply instruction of `bodySimple`. -/
def mulIsnW : Isn := { opcode := .mul, inputs := [-2, 2], outputs := [-3] }

/-- The output instruction of `bodySimple`. -/
def outIsnW : Isn := { opcode := .output, inputs := [-3] }

/-- The scheduler state of the `bodySimple` run just before cycle 4 (the
multiply is about to be scheduled; the add retired at cycle 3 into
register 4). -/
def schedStateW : SchedState :=
  { processor := procDefault, reserved_data := 3,
    used_registers := [4, 3, 0, 1, 2],
    exits := [(3, -2, 4), (1, -1, 3)],
    remaining := [mulIsnW, outIsnW],
    output := List.replicate 4 nopIsn }

/-- An instruction whose retirement cycle is already claimed in
`schedStateC` (used to witness the deferral branch). -/
def addIsnC : Isn := { opcode := .add, inputs := [], outputs := [-9] }

/-- A scheduler state whose Exit Map already claims cycle 2, colliding
with `addIsnC` issued at cycle 0 (latency 2). -/
def schedStateC : SchedState :=
  { processor := procDefault, reserved_data := 1,
    used_registers := [0],
    exits := [(2, -5, 3)],
    remaining := [addIsnC],
    output := [] }

/-- The concrete instruction used to exhibit the C4 encoding layout. -/
def isnC4 : Isn := { opcode := .add, inputs := [1, 2], outputs := [-2] }

/-- State with the literal 2 already interned at slot 0 (for the C7
witness). -/
def stateConst : ASTState := { data := [2], constants := [(2, 0)] }

/-- The IR state built for `bodySimple` (used by witnesses). -/
def astSimple : ASTState :=
  { program := [{ opcode := .input, outputs := [-1] },
                { opcode := .add, inputs := [0, 1], outputs := [-2] },
                { opcode := .mul, inputs := [-2, 2], outputs := [-3] },
                { opcode := .output, inputs := [-3] }],
    data := [5, 3, 4], next_ssa_reg := -4,
    constants := [(4, 2), (3, 1), (5, 0)],
    names := [(nameA, -2), (argX, -1)], globals := [] }

/-- The state `schedule_one schedStateW mulIsnW` produces (cycle 4 of the
`bodySimple` run). -/
def schedStateW2 : SchedState :=
  { processor := procDefault, reserved_data := 3,
    used_registers := [4, 3, 0, 1, 2],
    exits := [(7, -3, 4), (3, -2, 4), (1, -1, 3)],
    remaining := [outIsnW],
    output := List.replicate 4 nopIsn ++ [mkScheduled mulIsnW [4, 2]] }

/-- The state the scheduling loop reaches from `schedStateW` after 5
iterations (the working set is empty). -/
def schedFinalW : SchedState :=
  { processor := procDefault, reserved_data := 3,
    used_registers := [3, 0, 1, 2],
    exits := [(7, -3, 4), (3, -2, 4), (1, -1, 3)],
    remaining := [],
    output := [nopIsn, nopIsn, nopIsn, nopIsn, mkScheduled mulIsnW [4, 2],
               nopIsn, nopIsn, nopIsn, mkScheduled outIsnW [4]] }

/-! ### Syntactic detection of unsupported constructs (for C9) -/

/-- Does an expression contain a node outside the restricted vocabulary
(a call-like node or an unsupported binary operator)? -/
def Expr.hasUnsupported : Expr → Bool
  | .binop op l r => (op == .unsupportedOp) || l.hasUnsupported || r.hasUnsupported
  | .num _ => false
  | .name _ => false
  | .unsupportedExpr => true

/-- Is an assignment target outside the `ast.Name` vocabulary? -/
def AssignTarget.isUnsupportedT : AssignTarget → Bool
  | .name _ => false
  | .unsupportedTarget => true

/-- Does a statement contain a node outside the restricted vocabulary? -/
def Stmt.hasUnsupported : Stmt → Bool
  | .assign targets value => value.hasUnsupported || targets.any AssignTarget.isUnsupportedT
  | .ret value => value.hasUnsupported
  | .globalDecl _ => false
  | .unsupportedStmt => true

/-- Does the processed part of a body (the statements up to and including
the first return, the only ones `compile` walks) contain a node outside
the restricted vocabulary? -/
def processedHasUnsupported : List Stmt → Bool
  | [] => false
  | stmt :: rest =>
    stmt.hasUnsupported ||
      (match stmt with
       | .ret _ => false
       | _ => processedHasUnsupported rest)

/-! ### Proof infrastructure -/

/-- All output operands of an instruction list, in order. -/
def progOutputs (prog : List Isn) : List Int :=
  (prog.map Isn.outputs).flatten

/-- Invariant carried through the IR builder: virtual registers handed out
so far are the outputs of the emitted program, each produced exactly once,
all strictly above the (negative) SSA counter, and every negative operand
reachable from the environment or from instruction inputs is one of them. -/
structure BuilderInv (s : ASTState) : Prop where
  hneg : s.next_ssa_reg < 0
  houts : ∀ o ∈ progOutputs s.program, s.next_ssa_reg < o ∧ o < 0
  hnodup : (progOutputs s.program).Nodup
  hins : ∀ isn ∈ s.program, ∀ i ∈ isn.inputs, i < 0 → i ∈ progOutputs s.program
  hnames : ∀ p ∈ s.names, p.2 < 0 → p.2 ∈ progOutputs s.program

/-- Every virtual input of every listed instruction is either already
resolved by `R` or produced by an earlier instruction of the list. -/
def InvList (R : Int → Prop) : List Isn → Prop
  | [] => True
  | isn :: rest =>
    (∀ inp ∈ isn.inputs, inp < 0 → R inp) ∧
      InvList (fun v => R v ∨ v ∈ isn.outputs) rest

/-- Resolvability of a virtual register through the Exit Map. -/
def Rex (exits : List (Nat × Int × Nat)) (v : Int) : Prop :=
  ∃ c r, exits.lookup c = some (v, r)

/-- The scheduler invariant: every virtual input of every remaining
instruction is resolvable through the Exit Map or produced by an earlier
remaining instruction. -/
def SchedInv (s : SchedState) : Prop :=
  InvList (Rex s.exits) s.remaining

/-- Computes the checks of `ProducedFrom`, as a Bool: every virtual input
of every instruction refers to `avail` (extended with each instruction's
outputs in turn), i.e. each virtual input is produced by an earlier
instruction of the list. -/
def producedFromB (avail : List Int) : List Isn → Bool
  | [] => true
  | isn :: rest =>
    isn.inputs.all (fun inp => decide (0 ≤ inp) || avail.contains inp) &&
      producedFromB (avail ++ isn.outputs) rest

/-- A strict upper bound on the keys (retirement cycles) of the Exit Map. -/
def keyBound (exits : List (Nat × Int × Nat)) : Nat :=
  (exits.map Prod.fst).foldl max 0 + 1

/-! ### Helper lemmas: bit packing -/

theorem shiftLeft_lor_eq (a : Nat) {b n : Nat} (h : b < 2 ^ n) :
    (a <<< n) ||| b = a * 2 ^ n + b := by
  rw [Nat.shiftLeft_eq, Nat.mul_comm]
  exact (Nat.mul_add_lt_is_or h a).symm

theorem opcode_code_lt (o : Opcode) : o.code < 2 ^ opcode_bits := by
  cases o <;> decide

/-! ### C4: instruction encoding layout -/

/-- C4, counterexample: for the concrete add instruction with inputs
`[1, 2]` and exit register 3 at register width 4, the word produced by
`encode_instruction` differs from the word the claim's layout (opcode in
the most significant bits) would produce: the code packs the opcode into
the least significant bits. -/
theorem c4_encoding_counterexample :
    encode_instruction 4 isnC4 3 = 6409 ∧
    encode_instruction_claimed 4 isnC4 3 = 4387 ∧
    encode_instruction 4 isnC4 3 ≠ encode_instruction_claimed 4 isnC4 3 := by
  refine ⟨by decide, by decide, by decide⟩

/-- C4, amended: each scheduled instruction is packed into one fixed-width
word with the retirement-target register as the most significant field,
then the second input, then the first input/immediate, and the opcode (3
bits) as the least significant field — the reverse order of the claim.
Equivalently, the word equals
`((exit·2^w + r1)·2^w + r0)·2^3 + opcode` for register-index width `w`. -/
theorem c4_encoding_layout (reg_bits : Nat) (isn : Isn) (exit : Nat)
    (h0 : isnR0 isn < 2 ^ reg_bits) (h1 : isnR1 isn < 2 ^ reg_bits) :
    encode_instruction reg_bits isn exit =
      ((exit * 2 ^ reg_bits + isnR1 isn) * 2 ^ reg_bits + isnR0 isn) * 2 ^ opcode_bits
        + isn.opcode.code := by
  show ((((((0 <<< reg_bits) ||| exit) <<< reg_bits) ||| isnR1 isn) <<< reg_bits
          ||| isnR0 isn) <<< opcode_bits) ||| isn.opcode.code = _
  rw [Nat.zero_shiftLeft, Nat.zero_or, shiftLeft_lor_eq exit h1,
    shiftLeft_lor_eq _ h0, shiftLeft_lor_eq _ (opcode_code_lt isn.opcode)]

/-- Witness for `c4_encoding_layout` at the concrete instruction of the
counterexample. -/
theorem c4_encoding_layout_witness :
    encode_instruction 4 isnC4 3 =
      ((3 * 2 ^ 4 + isnR1 isnC4) * 2 ^ 4 + isnR0 isnC4) * 2 ^ opcode_bits
        + isnC4.opcode.code :=
  c4_encoding_layout 4 isnC4 3 (by decide) (by decide)

/-! ### C5: the `simple_test` schedule -/

/-- C5, counterexample: in the compiled schedule of `a = 5 + 3; return a*4`
with latencies add = 2 and multiply = 3, the instruction issued at cycle 0
is the always-emitted input instruction, not the add, and no instruction
retires at cycle 2. -/
theorem c5_schedule_counterexample :
    (compileProgram procDefault 20 argX bodySimple).map (fun o => o.map (fun cp =>
      ((cp.program.getD 0 nopIsn).opcode, cp.exits.lookup 2))) =
      .ok (some (.input, none)) := by
  decide

/-- C5, amended: the input instruction issues at cycle 0 and retires at
cycle 1 into register 3; the add issues at cycle 1 and retires at cycle 3
into register 4; cycles 2 and 3 are no-op stalls while the multiply's
input has not yet retired; the multiply issues at cycle 4 (after the add's
retirement cycle 3) reading register 4, and retires at cycle 7; the output
instruction issues at cycle 8 reading register 4. -/
theorem c5_schedule_amended :
    (compileProgram procDefault 20 argX bodySimple).map (fun o => o.map (fun cp =>
      cp.program.map Isn.opcode ==
          [.input, .add, .nop, .nop, .mul, .nop, .nop, .nop, .output] &&
        cp.exits.lookup 1 == some 3 &&
        cp.exits.lookup 3 == some 4 &&
        cp.exits.lookup 7 == some 4 &&
        (cp.program.getD 4 nopIsn).inputs == [4, 2] &&
        (cp.program.getD 8 nopIsn).inputs == [4])) = .ok (some true) := by
  decide

/-! ### C2: global variables are rebound, not stored -/

/-- C2, counterexample: in the IR built for
`global g; g = x + 1; return g + g`, the global `g` gets reserved slot 0,
but the assignment emits no store to slot 0 — it rebinds `g` to the
virtual register `-2` holding `x + 1` — and no instruction of the program
reads or writes slot 0 at all, so the later references to `g` do not read
the reserved slot. -/
theorem c2_reserved_slot_counterexample :
    (buildIR argX bodyGlobal).map ASTState.program =
      .ok [{ opcode := .input, immediate := none, inputs := [], outputs := [-1] },
           { opcode := .add, immediate := none, inputs := [-1, 1], outputs := [-2] },
           { opcode := .add, immediate := none, inputs := [-2, -2], outputs := [-3] },
           { opcode := .output, immediate := none, inputs := [-3], outputs := [] }] ∧
    (buildIR argX bodyGlobal).map (fun s => s.globals.lookup nameG) = .ok (some 0) ∧
    (buildIR argX bodyGlobal).map (fun s => s.program.all (fun isn =>
      !(isn.inputs.contains 0) && !(isn.outputs.contains 0))) = .ok true := by
  refine ⟨by decide, by decide, by decide⟩

/-- C2, amended: the declaration reserves Data Table slot 0 for `g`, but an
assignment to `g` rebinds the name to the reference of its right-hand side
(the virtual register `-2`) instead of storing to the slot; the later
references to `g` read that virtual register, and neither the IR nor the
scheduled program ever reads or writes the reserved slot 0. -/
theorem c2_global_rebinding_amended :
    (buildIR argX bodyGlobal).map (fun s => s.globals.lookup nameG) = .ok (some 0) ∧
    (buildIR argX bodyGlobal).map (fun s => s.names.lookup nameG) = .ok (some (-2)) ∧
    (buildIR argX bodyGlobal).map (fun s => (s.program.getD 2 nopIsn).inputs) =
      .ok [-2, -2] ∧
    (buildIR argX bodyGlobal).map (fun s => s.program.all (fun isn =>
      !(isn.inputs.contains 0) && !(isn.outputs.contains 0))) = .ok true ∧
    (compileProgram procDefault 20 argX bodyGlobal).map (fun o => o.map (fun cp =>
      cp.program.all (fun isn => !(isn.inputs.contains 0)) &&
      cp.exits.all (fun e => e.2 != 0))) = .ok (some true) := by
  refine ⟨by decide, by decide, by decide, by decide, by decide⟩

/-! ### C10: register allocation with an empty used-register set -/

/-- One `while`-loop iteration on the IR of `return x` fails inside
`allocate_register` (`max()` of the empty used-register set raises
`ValueError`). -/
theorem stepCycle_id_err :
    stepCycle (initScheduler procDefault 0 astId.program) = .error .valueError := by
  decide

/-- C10: compiling `def f(x): return x` — no globals and no literals, so
the Data Table is empty and the scheduler's initial used-register set is
empty — fails with the unhandled `ValueError` from `max()` of an empty set
in `Scheduler.allocate_register`, at the very first scheduled instruction
(the always-emitted input instruction), for every fuel allowance of at
least one loop iteration. -/
theorem c10_alloc_failure :
    ∀ fuel, 1 ≤ fuel → compileProgram procDefault fuel argX bodyId = .error .valueError := by
  intro fuel hf
  obtain ⟨n, rfl⟩ : ∃ n, fuel = n + 1 := ⟨fuel - 1, by omega⟩
  have hb : buildIR argX bodyId = .ok astId := by decide
  have hloop : scheduleLoop (n + 1) (initScheduler procDefault 0 astId.program) =
      .error .valueError := by
    rw [scheduleLoop]
    rw [show (initScheduler procDefault 0 astId.program).remaining.isEmpty = false from rfl]
    rw [show stepCycle (initScheduler procDefault 0 astId.program) =
      .error .valueError from stepCycle_id_err]
    rfl
  have hrs : runSchedule (n + 1) (initScheduler procDefault astId.data.length astId.program) =
      .error .valueError := by
    unfold runSchedule
    rw [show astId.data.length = 0 from rfl, hloop]
  show compileProgram procDefault (n + 1) argX bodyId = .error .valueError
  unfold compileProgram
  rw [hb]
  simp only [hrs]

/-- Witness for `c10_alloc_failure` at fuel 1. -/
theorem c10_alloc_failure_witness :
    compileProgram procDefault 1 argX bodyId = .error .valueError :=
  c10_alloc_failure 1 (le_refl 1)

/-! ### C9: unsupported constructs -/

/-- C9, counterexample: the tree `a = b = 1; return a` contains a
multi-target assignment, yet IR building succeeds (both targets are
`ast.Name` nodes, so the per-target assertion passes and each name is
bound to the interned slot of the literal 1). -/
theorem c9_multitarget_counterexample :
    (buildIR argX bodyMulti).map (fun s =>
      (s.program, s.names.lookup nameA, s.names.lookup nameB)) =
      .ok ([{ opcode := .input, immediate := none, inputs := [], outputs := [-1] },
            { opcode := .output, immediate := none, inputs := [0], outputs := [] }],
           some 0, some 0) := by
  decide

theorem emitExpr_hasUnsupported_err (e : Expr) (he : e.hasUnsupported = true) :
    ∀ s, ∃ err, emitExpr e s = .error err := by
  induction e with
  | binop op l r ihl ihr =>
    intro s
    simp only [Expr.hasUnsupported, Bool.or_eq_true, beq_iff_eq] at he
    cases hl : emitExpr l s with
    | error err => exact ⟨err, by simp [emitExpr, hl]⟩
    | ok ls =>
      cases hr : emitExpr r ls.2 with
      | error err => exact ⟨err, by simp [emitExpr, hl, hr]⟩
      | ok rs =>
        have hop : op = .unsupportedOp := by
          rcases he with (h | h) | h
          · exact h
          · obtain ⟨err, herr⟩ := ihl h s
            rw [hl] at herr
            exact absurd herr (by simp)
          · obtain ⟨err, herr⟩ := ihr h ls.2
            rw [hr] at herr
            exact absurd herr (by simp)
        exact ⟨.notImplemented, by simp [emitExpr, hl, hr, hop, binOpcode]⟩
  | num m => simp [Expr.hasUnsupported] at he
  | name id => simp [Expr.hasUnsupported] at he
  | unsupportedExpr => exact fun s => ⟨.notImplemented, rfl⟩

theorem bindTargets_unsupported_err (targets : List AssignTarget)
    (ht : targets.any AssignTarget.isUnsupportedT = true) :
    ∀ out s, bindTargets out targets s = .error .assertionError := by
  induction targets with
  | nil => simp at ht
  | cons t rest ih =>
    intro out s
    cases t with
    | name id =>
      simp only [List.any_cons, AssignTarget.isUnsupportedT, Bool.false_or] at ht
      exact ih ht out _
    | unsupportedTarget => rfl

theorem emitStmt_hasUnsupported_err (stmt : Stmt) (hs : stmt.hasUnsupported = true) :
    ∀ s, ∃ err, emitStmt stmt s = .error err := by
  cases stmt with
  | assign targets value =>
    intro s
    simp only [Stmt.hasUnsupported, Bool.or_eq_true] at hs
    cases hv : emitExpr value s with
    | error err => exact ⟨err, by simp [emitStmt, hv]⟩
    | ok vs =>
      have ht : targets.any AssignTarget.isUnsupportedT = true := by
        rcases hs with h | h
        · obtain ⟨err, herr⟩ := emitExpr_hasUnsupported_err value h s
          rw [hv] at herr
          exact absurd herr (by simp)
        · exact h
      exact ⟨.assertionError, by simp [emitStmt, hv, bindTargets_unsupported_err targets ht]⟩
  | ret value =>
    intro s
    simp only [Stmt.hasUnsupported] at hs
    cases hv : emitExpr value s with
    | error err => exact ⟨err, by simp [emitStmt, hv]⟩
    | ok vs =>
      obtain ⟨err, herr⟩ := emitExpr_hasUnsupported_err value hs s
      rw [hv] at herr
      exact absurd herr (by simp)
  | globalDecl names => simp [Stmt.hasUnsupported] at hs
  | unsupportedStmt => exact fun s => ⟨.notImplemented, rfl⟩

theorem emitBody_unsupported_err (body : List Stmt) :
    processedHasUnsupported body = true →
    ∀ s, ∃ err, emitBody body s = .error err := by
  induction body with
  | nil => intro hb; simp [processedHasUnsupported] at hb
  | cons stmt rest ih =>
    intro hb s
    cases hst : emitStmt stmt s with
    | error err => exact ⟨err, by simp [emitBody, hst]⟩
    | ok s' =>
      have hstmt : stmt.hasUnsupported = false := by
        cases h : stmt.hasUnsupported
        · rfl
        · obtain ⟨err, herr⟩ := emitStmt_hasUnsupported_err stmt h s
          rw [hst] at herr
          exact absurd herr (by simp)
      cases stmt with
      | ret v => simp [processedHasUnsupported, hstmt] at hb
      | assign targets v =>
        have hrest : processedHasUnsupported rest = true := by
          simpa [processedHasUnsupported, hstmt] using hb
        obtain ⟨err, herr⟩ := ih hrest s'
        exact ⟨err, by simp [emitBody, hst, herr]⟩
      | globalDecl names =>
        have hrest : processedHasUnsupported rest = true := by
          simpa [processedHasUnsupported, hstmt] using hb
        obtain ⟨err, herr⟩ := ih hrest s'
        exact ⟨err, by simp [emitBody, hst, herr]⟩
      | unsupportedStmt => simp [Stmt.hasUnsupported] at hstmt

/-- C9, amended: any construct outside the restricted vocabulary that the
tree walk actually reaches makes IR building fail, with no partial program
returned: a statement or expression node outside the vocabulary (loop,
conditional, call) raises `NotImplementedError` (the spec's
UnsupportedConstruct), as does an unsupported binary operator once its
operands have been evaluated; an assignment target that is not a simple
name fails the `isinstance` assertion; and whenever the processed
statements (up to the first return) contain any such node, `buildIR`
returns an error — whereas a multi-target assignment whose targets are all
simple names is supported. -/
theorem c9_unsupported_amended :
    (∀ arg body, processedHasUnsupported body = true →
      ∃ err, buildIR arg body = .error err) ∧
    (∀ s, emitStmt .unsupportedStmt s = .error .notImplemented) ∧
    (∀ s, emitExpr .unsupportedExpr s = .error .notImplemented) ∧
    (∀ out targets s, targets.any AssignTarget.isUnsupportedT = true →
      bindTargets out targets s = .error .assertionError) := by
  refine ⟨?_, fun s => rfl, fun s => rfl, ?_⟩
  · intro arg body hb
    exact emitBody_unsupported_err body hb _
  · intro out targets s ht
    exact bindTargets_unsupported_err targets ht out s

/-- Witness for `c9_unsupported_amended` at concrete inputs: a body whose
single statement is an unsupported construct, and a non-name assignment
target. -/
theorem c9_unsupported_amended_witness :
    (∃ err, buildIR argX [Stmt.unsupportedStmt] = .error err) ∧
    emitStmt .unsupportedStmt astId = .error .notImplemented ∧
    emitExpr .unsupportedExpr astId = .error .notImplemented ∧
    bindTargets 0 [AssignTarget.unsupportedTarget] astId = .error .assertionError :=
  ⟨c9_unsupported_amended.1 argX [Stmt.unsupportedStmt] (by decide),
   c9_unsupported_amended.2.1 astId,
   c9_unsupported_amended.2.2.1 astId,
   c9_unsupported_amended.2.2.2 0 [AssignTarget.unsupportedTarget] astId (by decide)⟩

/-! ### C7: constant interning -/

theorem bindTargets_fields (targets : List AssignTarget) :
    ∀ out s s', bindTargets out targets s = .ok s' →
      s'.program = s.program ∧ s'.data = s.data ∧ s'.constants = s.constants ∧
        s'.next_ssa_reg = s.next_ssa_reg ∧ s'.globals = s.globals := by
  induction targets with
  | nil =>
    intro out s s' h
    cases h
    exact ⟨rfl, rfl, rfl, rfl, rfl⟩
  | cons t rest ih =>
    intro out s s' h
    cases t with
    | name id =>
      simp only [bindTargets] at h
      exact ih out { s with names := (id, out) :: s.names } s' h
    | unsupportedTarget => exact Except.noConfusion h

theorem emitExpr_constants_mono (e : Expr) :
    ∀ s vs, emitExpr e s = .ok vs →
      ∀ n c, s.constants.lookup n = some c → vs.2.constants.lookup n = some c := by
  induction e with
  | binop op l r ihl ihr =>
    intro s vs h n c hc
    simp only [emitExpr] at h
    split at h
    · exact Except.noConfusion h
    · rename_i ls hl
      split at h
      · exact Except.noConfusion h
      · rename_i rs hr
        split at h
        · exact Except.noConfusion h
        · rename_i opc hop
          cases h
          exact ihr _ _ hr n c (ihl _ _ hl n c hc)
  | num m =>
    intro s vs h n c hc
    simp only [emitExpr] at h
    split at h
    · rename_i r hm
      cases h
      exact hc
    · rename_i hm
      cases h
      have hne : (n == m) = false := by
        cases hbeq : n == m
        · rfl
        · rw [show n = m from eq_of_beq hbeq, hm] at hc
          exact Option.noConfusion hc
      rw [List.lookup_cons, hne]
      exact hc
  | name id =>
    intro s vs h n c hc
    simp only [emitExpr] at h
    split at h
    · rename_i r hm
      cases h
      exact hc
    · exact Except.noConfusion h
  | unsupportedExpr => intro s vs h; exact Except.noConfusion h

theorem emitStmt_constants_mono (stmt : Stmt) :
    ∀ s s', emitStmt stmt s = .ok s' →
      ∀ n c, s.constants.lookup n = some c → s'.constants.lookup n = some c := by
  cases stmt with
  | assign targets value =>
    intro s s' h n c hc
    simp only [emitStmt] at h
    split at h
    · exact Except.noConfusion h
    · rename_i vs hv
      have hb := bindTargets_fields targets vs.1 vs.2 s' h
      rw [hb.2.2.1]
      exact emitExpr_constants_mono value s vs hv n c hc
  | ret value =>
    intro s s' h n c hc
    simp only [emitStmt] at h
    split at h
    · exact Except.noConfusion h
    · rename_i vs hv
      cases h
      exact emitExpr_constants_mono value s vs hv n c hc
  | globalDecl names =>
    intro s s' h n c hc
    cases h
    exact hc
  | unsupportedStmt => intro s s' h; exact Except.noConfusion h

theorem emitBody_constants_mono (body : List Stmt) :
    ∀ s s', emitBody body s = .ok s' →
      ∀ n c, s.constants.lookup n = some c → s'.constants.lookup n = some c := by
  induction body with
  | nil =>
    intro s s' h n c hc
    cases h
    exact hc
  | cons stmt rest ih =>
    intro s s' h n c hc
    simp only [emitBody] at h
    split at h
    · exact Except.noConfusion h
    · rename_i s1 hst
      have h1 := emitStmt_constants_mono stmt s s1 hst n c hc
      cases stmt with
      | ret v => cases h; exact h1
      | assign targets v => exact ih s1 s' h n c h1
      | globalDecl names => exact ih s1 s' h n c h1
      | unsupportedStmt => exact Except.noConfusion hst

/-- C7: a literal whose value is already interned resolves to its existing
Data Table slot, leaving the state (in particular the emitted program)
untouched; a first occurrence allocates the next slot and records it in
the constants table, emitting no instruction; and every emission step of
the builder preserves existing constants-table entries, so two equal
literals anywhere in the walked input resolve to the same slot. -/
theorem c7_constant_interning :
    (∀ (n : Int) (s : ASTState) (c : Nat), s.constants.lookup n = some c →
      emitExpr (.num n) s = .ok ((c : Int), s)) ∧
    (∀ (n : Int) (s : ASTState), s.constants.lookup n = none →
      emitExpr (.num n) s =
        .ok ((s.data.length : Int),
          { s with data := s.data ++ [n], constants := (n, s.data.length) :: s.constants })) ∧
    (∀ e s vs, emitExpr e s = .ok vs →
      ∀ n c, s.constants.lookup n = some c → vs.2.constants.lookup n = some c) ∧
    (∀ stmt s s', emitStmt stmt s = .ok s' →
      ∀ n c, s.constants.lookup n = some c → s'.constants.lookup n = some c) ∧
    (∀ body s s', emitBody body s = .ok s' →
      ∀ n c, s.constants.lookup n = some c → s'.constants.lookup n = some c) := by
  refine ⟨fun n s c hc => by simp [emitExpr, hc], fun n s hc => by simp [emitExpr, hc],
    fun e => emitExpr_constants_mono e, fun stmt => emitStmt_constants_mono stmt,
    fun body => emitBody_constants_mono body⟩

/-- Witness for `c7_constant_interning` at concrete inputs: the literal 2
re-resolves to slot 0 of `stateConst`; the literal 3 allocates slot 0 of
the empty state; and the entry `2 ↦ 0` survives an emission step. -/
theorem c7_constant_interning_witness :
    emitExpr (.num 2) stateConst = .ok ((0 : Int), stateConst) ∧
    emitExpr (.num 3) {} = .ok ((0 : Int), { data := [3], constants := [(3, 0)] }) ∧
    stateConst.constants.lookup 2 = some 0 ∧
    stateConst.constants.lookup 2 = some 0 :=
  ⟨c7_constant_interning.1 2 stateConst 0 (by decide),
   c7_constant_interning.2.1 3 {} (by decide),
   c7_constant_interning.2.2.1 (.num 2) stateConst ((0 : Int), stateConst)
     (by decide) 2 0 (by decide),
   c7_constant_interning.2.2.2.1 (.globalDecl []) stateConst stateConst rfl 2 0 (by decide)⟩

/-! ### C6: SSA uniqueness -/

theorem progOutputs_nil : progOutputs [] = [] := rfl

theorem progOutputs_cons (isn : Isn) (rest : List Isn) :
    progOutputs (isn :: rest) = isn.outputs ++ progOutputs rest := by
  simp [progOutputs]

theorem progOutputs_append (p q : List Isn) :
    progOutputs (p ++ q) = progOutputs p ++ progOutputs q := by
  simp [progOutputs]

theorem mem_progOutputs {v : Int} {prog : List Isn} :
    v ∈ progOutputs prog ↔ ∃ isn ∈ prog, v ∈ isn.outputs := by
  simp [progOutputs, List.mem_flatten]

theorem lookup_mem {α β : Type} [BEq α] [LawfulBEq α] {l : List (α × β)} {k : α} {b : β}
    (h : l.lookup k = some b) : (k, b) ∈ l := by
  induction l with
  | nil => exact Option.noConfusion h
  | cons p rest ih =>
    obtain ⟨q, v⟩ := p
    rw [List.lookup_cons] at h
    cases hbeq : k == q with
    | true =>
      rw [hbeq] at h
      cases h
      rw [show k = q from eq_of_beq hbeq]
      exact List.mem_cons_self _ _
    | false =>
      rw [hbeq] at h
      exact List.mem_cons_of_mem _ (ih h)

theorem builderInv_default : BuilderInv {} :=
  ⟨by decide, by simp [progOutputs], by simp [progOutputs], by simp, by simp⟩

theorem builderInv_addGlobal (s : ASTState) (nm : String) (h : BuilderInv s) :
    BuilderInv (add_global s nm) := by
  refine ⟨h.hneg, h.houts, h.hnodup, h.hins, ?_⟩
  intro p hp hneg
  rcases List.mem_cons.mp hp with rfl | hp'
  · have : (0 : Int) ≤ s.data.length := Int.ofNat_nonneg _
    omega
  · exact h.hnames p hp' hneg

theorem builderInv_foldl_addGlobal (l : List String) :
    ∀ s, BuilderInv s → BuilderInv (l.foldl add_global s) := by
  induction l with
  | nil => exact fun s h => h
  | cons nm rest ih => exact fun s h => ih _ (builderInv_addGlobal s nm h)

theorem builderInv_declareGlobals (body : List Stmt) :
    ∀ s, BuilderInv s → BuilderInv (declareGlobals body s) := by
  induction body with
  | nil => exact fun s h => h
  | cons stmt rest ih =>
    intro s h
    cases stmt with
    | globalDecl names => exact ih _ (builderInv_foldl_addGlobal names s h)
    | assign targets value => exact ih s h
    | ret value => exact ih s h
    | unsupportedStmt => exact ih s h

theorem builderInv_appendFresh (s : ASTState) (h : BuilderInv s) (isn : Isn)
    (hout : isn.outputs = [s.next_ssa_reg])
    (hins2 : ∀ i ∈ isn.inputs, i < 0 → i ∈ progOutputs s.program) :
    BuilderInv { s with program := s.program ++ [isn], next_ssa_reg := s.next_ssa_reg - 1 } := by
  have hno : progOutputs (s.program ++ [isn]) =
      progOutputs s.program ++ [s.next_ssa_reg] := by
    simp [progOutputs_append, progOutputs_cons, progOutputs_nil, hout]
  refine ⟨?_, ?_, ?_, ?_, ?_⟩
  · show s.next_ssa_reg - 1 < 0
    have := h.hneg
    omega
  · intro o ho
    have ho' : o ∈ progOutputs (s.program ++ [isn]) := ho
    rw [hno] at ho'
    show s.next_ssa_reg - 1 < o ∧ o < 0
    rcases List.mem_append.mp ho' with hold | hnew
    · have := h.houts o hold
      exact ⟨by omega, this.2⟩
    · rw [List.mem_singleton] at hnew
      subst hnew
      exact ⟨by omega, h.hneg⟩
  · show (progOutputs (s.program ++ [isn])).Nodup
    rw [hno]
    rw [List.nodup_append]
    refine ⟨h.hnodup, List.nodup_singleton _, ?_⟩
    intro a ha ha'
    rw [List.mem_singleton] at ha'
    subst ha'
    exact absurd (h.houts _ ha).1 (lt_irrefl _)
  · intro isn' hisn' i hi hineg
    have hisn2 : isn' ∈ s.program ++ [isn] := hisn'
    show i ∈ progOutputs (s.program ++ [isn])
    rw [hno]
    rcases List.mem_append.mp hisn2 with hold | hnew
    · exact List.mem_append_left _ (h.hins isn' hold i hi hineg)
    · rw [List.mem_singleton] at hnew
      subst hnew
      exact List.mem_append_left _ (hins2 i hi hineg)
  · intro p hp hneg2
    have hp2 : p ∈ s.names := hp
    show p.2 ∈ progOutputs (s.program ++ [isn])
    rw [hno]
    exact List.mem_append_left _ (h.hnames p hp2 hneg2)

theorem builderInv_consName (s : ASTState) (h : BuilderInv s) (nm : String) (v : Int)
    (hv : v < 0 → v ∈ progOutputs s.program) :
    BuilderInv { s with names := (nm, v) :: s.names } := by
  refine ⟨h.hneg, h.houts, h.hnodup, h.hins, ?_⟩
  intro p hp hneg2
  rcases List.mem_cons.mp hp with rfl | hp'
  · exact hv hneg2
  · exact h.hnames p hp' hneg2

theorem builderInv_astInput (s : ASTState) (arg : String) (h : BuilderInv s) :
    BuilderInv (astInput s arg) := by
  have h1 := builderInv_appendFresh s h { opcode := .input, outputs := [s.next_ssa_reg] }
    rfl (by simp)
  have h2 := builderInv_consName _ h1 arg s.next_ssa_reg (by
    intro _
    show s.next_ssa_reg ∈ progOutputs (s.program ++
      [{ opcode := .input, outputs := [s.next_ssa_reg] }])
    rw [progOutputs_append]
    exact List.mem_append_right _ (by simp [progOutputs_cons, progOutputs_nil]))
  exact h2

theorem bindTargets_inv (targets : List AssignTarget) :
    ∀ out s s', bindTargets out targets s = .ok s' → BuilderInv s →
      (out < 0 → out ∈ progOutputs s.program) →
      BuilderInv s' ∧ s'.program = s.program ∧ s'.next_ssa_reg = s.next_ssa_reg := by
  induction targets with
  | nil =>
    intro out s s' h hi ho
    cases h
    exact ⟨hi, rfl, rfl⟩
  | cons t rest ih =>
    intro out s s' h hi ho
    cases t with
    | name id =>
      simp only [bindTargets] at h
      have hr := ih out { s with names := (id, out) :: s.names } s' h
        (builderInv_consName s hi id out ho) ho
      exact ⟨hr.1, hr.2.1, hr.2.2⟩
    | unsupportedTarget => exact Except.noConfusion h

theorem emitExpr_inv (e : Expr) :
    ∀ s rs, emitExpr e s = .ok rs → BuilderInv s →
      BuilderInv rs.2 ∧ (∃ t, rs.2.program = s.program ++ t) ∧
        rs.2.next_ssa_reg ≤ s.next_ssa_reg ∧ rs.2.names = s.names ∧
        (rs.1 < 0 → rs.1 ∈ progOutputs rs.2.program) := by
  induction e with
  | binop op l r ihl ihr =>
    intro s rs h hinv
    simp only [emitExpr] at h
    split at h
    · exact Except.noConfusion h
    · rename_i ls hl
      split at h
      · exact Except.noConfusion h
      · rename_i rs2 hr
        split at h
        · exact Except.noConfusion h
        · rename_i opc hop
          cases h
          obtain ⟨hinvl, ⟨t1, hp1⟩, hn1, hm1, hr1⟩ := ihl s ls hl hinv
          obtain ⟨hinvr, ⟨t2, hp2⟩, hn2, hm2, hr2⟩ := ihr ls.2 rs2 hr hinvl
          have happ := builderInv_appendFresh rs2.2 hinvr
            { opcode := opc, inputs := [ls.1, rs2.1], outputs := [rs2.2.next_ssa_reg] }
            rfl (by
              intro i hi hineg
              rcases List.mem_cons.mp hi with rfl | hi'
              · have hmem := hr1 hineg
                rw [hp2, progOutputs_append]
                exact List.mem_append_left _ hmem
              · rw [List.mem_singleton] at hi'
                subst hi'
                exact hr2 hineg)
          refine ⟨happ, ⟨t1 ++ (t2 ++
              [{ opcode := opc, inputs := [ls.1, rs2.1], outputs := [rs2.2.next_ssa_reg] }]), ?_⟩,
            by show rs2.2.next_ssa_reg - 1 ≤ s.next_ssa_reg; omega, hm2.trans hm1, ?_⟩
          · show rs2.2.program ++ [_] = _
            rw [hp2, hp1]
            simp [List.append_assoc]
            rfl
          · intro _
            show rs2.2.next_ssa_reg ∈ progOutputs (rs2.2.program ++
              [{ opcode := opc, inputs := [ls.1, rs2.1], outputs := [rs2.2.next_ssa_reg] }])
            rw [progOutputs_append]
            exact List.mem_append_right _ (by simp [progOutputs_cons, progOutputs_nil])
  | num m =>
    intro s rs h hinv
    simp only [emitExpr] at h
    split at h
    · rename_i r hm
      cases h
      refine ⟨hinv, ⟨[], by simp⟩, le_refl _, rfl, ?_⟩
      intro hlt
      exact absurd hlt (by omega)
    · rename_i hm
      cases h
      refine ⟨⟨hinv.hneg, hinv.houts, hinv.hnodup, hinv.hins, hinv.hnames⟩,
        ⟨[], by simp⟩, le_refl _, rfl, ?_⟩
      intro hlt
      exact absurd hlt (by omega)
  | name id =>
    intro s rs h hinv
    simp only [emitExpr] at h
    split at h
    · rename_i r hm
      cases h
      exact ⟨hinv, ⟨[], by simp⟩, le_refl _, rfl,
        fun hneg => hinv.hnames (id, r) (lookup_mem hm) hneg⟩
    · exact Except.noConfusion h
  | unsupportedExpr => intro s rs h; exact Except.noConfusion h

theorem emitStmt_inv (stmt : Stmt) :
    ∀ s s', emitStmt stmt s = .ok s' → BuilderInv s →
      BuilderInv s' ∧ (∃ t, s'.program = s.program ++ t) ∧
        s'.next_ssa_reg ≤ s.next_ssa_reg := by
  cases stmt with
  | assign targets value =>
    intro s s' h hinv
    simp only [emitStmt] at h
    split at h
    · exact Except.noConfusion h
    · rename_i vs hv
      obtain ⟨hinvv, ⟨t, hp⟩, hn, hm, hr⟩ := emitExpr_inv value s vs hv hinv
      obtain ⟨hinvb, hp2, hn2⟩ := bindTargets_inv targets vs.1 vs.2 s' h hinvv hr
      refine ⟨hinvb, ⟨t, ?_⟩, by omega⟩
      rw [hp2, hp]
  | ret value =>
    intro s s' h hinv
    simp only [emitStmt] at h
    split at h
    · exact Except.noConfusion h
    · rename_i vs hv
      cases h
      obtain ⟨hinvv, ⟨t, hp⟩, hn, hm, hr⟩ := emitExpr_inv value s vs hv hinv
      have hno : progOutputs (vs.2.program ++
          [{ opcode := Opcode.output, inputs := [vs.1], outputs := [] }]) =
          progOutputs vs.2.program := by
        simp [progOutputs_append, progOutputs_cons, progOutputs_nil]
      refine ⟨⟨hinvv.hneg, ?_, ?_, ?_, ?_⟩,
        ⟨t ++ [{ opcode := Opcode.output, inputs := [vs.1], outputs := [] }], ?_⟩, hn⟩
      · intro o ho
        have ho' : o ∈ progOutputs (vs.2.program ++
          [{ opcode := Opcode.output, inputs := [vs.1], outputs := [] }]) := ho
        rw [hno] at ho'
        exact hinvv.houts o ho'
      · show (progOutputs (vs.2.program ++
          [{ opcode := Opcode.output, inputs := [vs.1], outputs := [] }])).Nodup
        rw [hno]
        exact hinvv.hnodup
      · intro isn hisn i hi hineg
        have hisn2 : isn ∈ vs.2.program ++
          [{ opcode := Opcode.output, inputs := [vs.1], outputs := [] }] := hisn
        show i ∈ progOutputs (vs.2.program ++
          [{ opcode := Opcode.output, inputs := [vs.1], outputs := [] }])
        rw [hno]
        rcases List.mem_append.mp hisn2 with hold | hnew
        · exact hinvv.hins isn hold i hi hineg
        · rw [List.mem_singleton] at hnew
          subst hnew
          rw [List.mem_singleton] at hi
          subst hi
          exact hr hineg
      · intro p hp' hneg
        have hp2 : p ∈ vs.2.names := hp'
        show p.2 ∈ progOutputs (vs.2.program ++
          [{ opcode := Opcode.output, inputs := [vs.1], outputs := [] }])
        rw [hno]
        exact hinvv.hnames p hp2 hneg
      · show vs.2.program ++ _ = _
        rw [hp]
        simp [List.append_assoc]
  | globalDecl names =>
    intro s s' h hinv
    cases h
    exact ⟨hinv, ⟨[], by simp⟩, le_refl _⟩
  | unsupportedStmt => intro s s' h; exact Except.noConfusion h

theorem emitBody_inv (body : List Stmt) :
    ∀ s s', emitBody body s = .ok s' → BuilderInv s → BuilderInv s' := by
  induction body with
  | nil =>
    intro s s' h hinv
    cases h
    exact hinv
  | cons stmt rest ih =>
    intro s s' h hinv
    simp only [emitBody] at h
    split at h
    · exact Except.noConfusion h
    · rename_i s1 hst
      have h1 := (emitStmt_inv stmt s s1 hst hinv).1
      cases stmt with
      | ret v => cases h; exact h1
      | assign targets v => exact ih s1 s' h h1
      | globalDecl names => exact ih s1 s' h h1
      | unsupportedStmt => exact Except.noConfusion hst

theorem countP_outputs_eq_one (prog : List Isn) (v : Int)
    (hnodup : (progOutputs prog).Nodup) (hmem : v ∈ progOutputs prog) :
    prog.countP (fun isn => decide (v ∈ isn.outputs)) = 1 := by
  induction prog with
  | nil => simp [progOutputs] at hmem
  | cons isn rest ih =>
    rw [progOutputs_cons] at hnodup hmem
    rw [List.countP_cons]
    obtain ⟨hn1, hn2, hdisj⟩ := List.nodup_append.mp hnodup
    by_cases hv : v ∈ isn.outputs
    · have hnotin : v ∉ progOutputs rest := fun hmem' => hdisj hv hmem'
      have hrest : rest.countP (fun isn => decide (v ∈ isn.outputs)) = 0 := by
        rw [List.countP_eq_zero]
        intro isn' hisn' hdec
        rw [decide_eq_true_eq] at hdec
        exact hnotin (mem_progOutputs.mpr ⟨isn', hisn', hdec⟩)
      simp [hrest, hv]
    · have hmem' : v ∈ progOutputs rest := by
        rcases List.mem_append.mp hmem with h1 | h2
        · exact absurd h1 hv
        · exact h2
      have := ih hn2 hmem'
      simp [this, hv]

/-- C6: in the IR produced by the builder for any input tree it accepts,
every virtual (negative) register that appears anywhere in the instruction
list (as an input or as an output) is the output of exactly one
instruction — freshly drawn SSA registers are never reused, and every
virtual input refers to some instruction's output. -/
theorem c6_ssa_uniqueness :
    ∀ arg body s, buildIR arg body = .ok s →
      ∀ v : Int, v < 0 → (∃ isn ∈ s.program, v ∈ isn.inputs ∨ v ∈ isn.outputs) →
      s.program.countP (fun isn => decide (v ∈ isn.outputs)) = 1 := by
  intro arg body s h v hv hmem
  have hinv0 : BuilderInv (declareGlobals body {}) :=
    builderInv_declareGlobals body {} builderInv_default
  have hinv1 : BuilderInv (astInput (declareGlobals body {}) arg) :=
    builderInv_astInput _ arg hinv0
  have hinv : BuilderInv s := emitBody_inv body _ s h hinv1
  obtain ⟨isn, hisn, hcase⟩ := hmem
  have hvout : v ∈ progOutputs s.program := by
    rcases hcase with hin | hout
    · exact hinv.hins isn hisn v hin hv
    · exact mem_progOutputs.mpr ⟨isn, hisn, hout⟩
  exact countP_outputs_eq_one s.program v hinv.hnodup hvout

/-- Witness for `c6_ssa_uniqueness`: in the IR of `a = 5 + 3; return a*4`,
the virtual register -2 (which appears both as the add's output and the
multiply's input) is the output of exactly one instruction. -/
theorem c6_ssa_uniqueness_witness :
    astSimple.program.countP (fun isn => decide ((-2 : Int) ∈ isn.outputs)) = 1 :=
  c6_ssa_uniqueness argX bodySimple astSimple (by decide) (-2) (by decide)
    (by decide)

/-! ### Scheduler characterization lemmas -/

theorem freeLoop_fields (l : List (Int × Int)) :
    ∀ t t', freeLoop l t = .ok t' →
      t'.remaining = t.remaining ∧ t'.exits = t.exits ∧ t'.output = t.output ∧
        t'.processor = t.processor ∧ t'.reserved_data = t.reserved_data := by
  induction l with
  | nil =>
    intro t t' h
    cases h
    exact ⟨rfl, rfl, rfl, rfl, rfl⟩
  | cons pr rest ih =>
    intro t t' h
    simp only [freeLoop] at h
    split at h
    · split at h
      · exact Except.noConfusion h
      · rename_i t1 hfr
        have hf : t1.remaining = t.remaining ∧ t1.exits = t.exits ∧ t1.output = t.output ∧
            t1.processor = t.processor ∧ t1.reserved_data = t.reserved_data := by
          simp only [free_register] at hfr
          split at hfr
          · cases hfr; exact ⟨rfl, rfl, rfl, rfl, rfl⟩
          · exact Except.noConfusion hfr
        have hr := ih t1 t' h
        exact ⟨hr.1.trans hf.1, hr.2.1.trans hf.2.1, hr.2.2.1.trans hf.2.2.1,
          hr.2.2.2.1.trans hf.2.2.2.1, hr.2.2.2.2.trans hf.2.2.2.2⟩
    · exact ih t t' h

theorem allocate_register_fields {t : SchedState} {rt : Nat × SchedState}
    (h : allocate_register t = .ok rt) :
    rt.2.remaining = t.remaining ∧ rt.2.exits = t.exits ∧ rt.2.output = t.output ∧
      rt.2.processor = t.processor ∧ rt.2.reserved_data = t.reserved_data := by
  simp only [allocate_register] at h
  split at h
  · exact Except.noConfusion h
  · split at h
    · exact Except.noConfusion h
    · cases h
      exact ⟨rfl, rfl, rfl, rfl, rfl⟩

theorem removeAndFree_fields {s : SchedState} {isn : Isn} {mapped : List Int}
    {t : SchedState} (h : removeAndFree s isn mapped = .ok t) :
    t.remaining = s.remaining.erase isn ∧ t.exits = s.exits ∧ t.output = s.output ∧
      t.processor = s.processor ∧ t.reserved_data = s.reserved_data := by
  have := freeLoop_fields (isn.inputs.zip mapped) _ t h
  exact this

theorem schedule_one_some {s : SchedState} {isn : Isn} {s' : SchedState}
    (h : schedule_one s isn = .ok (some s')) :
    ∃ mapped, find_inputs s.exits s.output.length isn.inputs = some mapped ∧
      s'.remaining = s.remaining.erase isn ∧
      s'.output = s.output ++ [mkScheduled isn mapped] ∧
      ((isn.outputs = [] ∧ s'.exits = s.exits) ∨
        (∃ o lat reg, isn.outputs = [o] ∧
          get_instruction_latency s.processor isn = some lat ∧
          s.exits.lookup (s.output.length + lat) = none ∧
          s'.exits = (s.output.length + lat, o, reg) :: s.exits)) := by
  simp only [schedule_one] at h
  split at h
  · simp at h
  · rename_i mapped hfi
    refine ⟨mapped, hfi, ?_⟩
    split at h
    · rename_i houts
      split at h
      · exact Except.noConfusion h
      · rename_i t hraf
        cases h
        obtain ⟨h1, h2, h3, _, _⟩ := removeAndFree_fields hraf
        exact ⟨h1, by rw [show t.output ++ [mkScheduled isn mapped] =
          t.output ++ [mkScheduled isn mapped] from rfl, h3], Or.inl ⟨houts, h2⟩⟩
    · rename_i o outRest houts
      split at h
      · exact Except.noConfusion h
      · rename_i lat hlat
        split at h
        · simp at h
        · rename_i hnotsome
          split at h
          · exact Except.noConfusion h
          · rename_i t hraf
            split at h
            · split at h
              · exact Except.noConfusion h
              · rename_i rt halloc
                cases h
                obtain ⟨h1, h2, h3, _, _⟩ := removeAndFree_fields hraf
                obtain ⟨a1, a2, a3, _, _⟩ := allocate_register_fields halloc
                refine ⟨a1.trans h1, by rw [a3, h3], Or.inr ⟨o, lat, rt.1, houts, hlat,
                  Option.not_isSome_iff_eq_none.mp hnotsome, by rw [a2, h2]⟩⟩
            · exact Except.noConfusion h

theorem tryRemaining_some {s : SchedState} : ∀ {l : List Isn} {s' : SchedState},
    tryRemaining s l = .ok (some s') → ∃ isn ∈ l, schedule_one s isn = .ok (some s') := by
  intro l
  induction l with
  | nil => intro s' h; simp [tryRemaining] at h
  | cons isn rest ih =>
    intro s' h
    simp only [tryRemaining] at h
    split at h
    · exact Except.noConfusion h
    · rename_i s1 hs1
      cases h
      exact ⟨isn, List.mem_cons_self _ _, hs1⟩
    · rename_i hnone
      obtain ⟨isn', hmem, hs⟩ := ih h
      exact ⟨isn', List.mem_cons_of_mem _ hmem, hs⟩

theorem stepCycle_cases {s s' : SchedState} (h : stepCycle s = .ok s') :
    s' = { s with output := s.output ++ [nopIsn] } ∨
      ∃ isn ∈ s.remaining, schedule_one s isn = .ok (some s') := by
  simp only [stepCycle] at h
  split at h
  · exact Except.noConfusion h
  · rename_i s1 htr
    cases h
    exact Or.inr (tryRemaining_some htr)
  · cases h
    exact Or.inl rfl

theorem schedule_one_exits_mono {s : SchedState} {isn : Isn} {s' : SchedState}
    (h : schedule_one s isn = .ok (some s')) :
    ∀ i v, s.exits.lookup i = some v → s'.exits.lookup i = some v := by
  obtain ⟨mapped, hfi, hrem, hout, hex⟩ := schedule_one_some h
  intro i v hv
  rcases hex with ⟨_, he⟩ | ⟨o, lat, reg, _, _, hnone, he⟩
  · rw [he]; exact hv
  · rw [he, List.lookup_cons]
    have hne : (i == s.output.length + lat) = false := by
      cases hbeq : i == s.output.length + lat
      · rfl
      · rw [show i = s.output.length + lat from eq_of_beq hbeq, hnone] at hv
        exact Option.noConfusion hv
    rw [hne]
    exact hv

theorem stepCycle_exits_mono {s s' : SchedState} (h : stepCycle s = .ok s') :
    ∀ i v, s.exits.lookup i = some v → s'.exits.lookup i = some v := by
  intro i v hv
  rcases stepCycle_cases h with rfl | ⟨isn, _, hso⟩
  · exact hv
  · exact schedule_one_exits_mono hso i v hv

theorem scheduleLoop_exits_mono : ∀ (fuel : Nat) (s s' : SchedState),
    scheduleLoop fuel s = .ok (some s') →
    ∀ i v, s.exits.lookup i = some v → s'.exits.lookup i = some v := by
  intro fuel
  induction fuel with
  | zero =>
    intro s s' h i v hv
    simp only [scheduleLoop] at h
    split at h
    · cases h; exact hv
    · simp at h
  | succ n ih =>
    intro s s' h i v hv
    simp only [scheduleLoop] at h
    split at h
    · cases h; exact hv
    · split at h
      · exact Except.noConfusion h
      · rename_i s1 hstep
        exact ih s1 s' h i v (stepCycle_exits_mono hstep i v hv)

theorem lookup_none_not_mem {i : Nat} {l : List (Nat × Int × Nat)}
    (h : l.lookup i = none) : i ∉ l.map Prod.fst := by
  rw [List.lookup_eq_none_iff] at h
  intro hmem
  obtain ⟨p, hp, hp2⟩ := List.mem_map.mp hmem
  have := h p hp
  rw [hp2] at this
  simp at this

theorem schedule_one_keys_nodup {s : SchedState} {isn : Isn} {s' : SchedState}
    (h : schedule_one s isn = .ok (some s'))
    (hn : (s.exits.map Prod.fst).Nodup) : (s'.exits.map Prod.fst).Nodup := by
  obtain ⟨mapped, hfi, hrem, hout, hex⟩ := schedule_one_some h
  rcases hex with ⟨_, he⟩ | ⟨o, lat, reg, _, _, hnone, he⟩
  · rw [he]; exact hn
  · rw [he, List.map_cons, List.nodup_cons]
    exact ⟨lookup_none_not_mem hnone, hn⟩

theorem stepCycle_keys_nodup {s s' : SchedState} (h : stepCycle s = .ok s')
    (hn : (s.exits.map Prod.fst).Nodup) : (s'.exits.map Prod.fst).Nodup := by
  rcases stepCycle_cases h with rfl | ⟨isn, _, hso⟩
  · exact hn
  · exact schedule_one_keys_nodup hso hn

theorem scheduleLoop_keys_nodup : ∀ (fuel : Nat) (s s' : SchedState),
    scheduleLoop fuel s = .ok (some s') →
    (s.exits.map Prod.fst).Nodup → (s'.exits.map Prod.fst).Nodup := by
  intro fuel
  induction fuel with
  | zero =>
    intro s s' h hn
    simp only [scheduleLoop] at h
    split at h
    · cases h; exact hn
    · simp at h
  | succ n ih =>
    intro s s' h hn
    simp only [scheduleLoop] at h
    split at h
    · cases h; exact hn
    · split at h
      · exact Except.noConfusion h
      · rename_i s1 hstep
        exact ih s1 s' h (stepCycle_keys_nodup hstep hn)

/-! ### C1: schedule hazard-freedom -/

theorem findExit_some {exits : List (Nat × Int × Nat)} {cycle : Nat} {inp : Int} {rm : Nat}
    (h : findExit exits cycle inp = some rm) :
    ∃ i, i < cycle ∧ exits.lookup i = some (inp, rm) := by
  obtain ⟨i, hmem, hf⟩ := List.exists_of_findSome?_eq_some h
  refine ⟨i, List.mem_range.mp hmem, ?_⟩
  cases hl : exits.lookup i with
  | none => rw [hl] at hf; exact Option.noConfusion hf
  | some rrm =>
    obtain ⟨r1, r2⟩ := rrm
    rw [hl] at hf
    have hf' : (if r1 = inp then some r2 else none) = some rm := hf
    by_cases heq : r1 = inp
    · subst heq
      rw [if_pos rfl] at hf'
      cases hf'
      rfl
    · rw [if_neg heq] at hf'
      exact Option.noConfusion hf'

theorem find_inputs_spec {exits : List (Nat × Int × Nat)} {cycle : Nat} :
    ∀ {inputs : List Int} {mapped : List Int},
      find_inputs exits cycle inputs = some mapped →
      mapped.length = inputs.length ∧
      ∀ k (hk : k < inputs.length),
        (0 ≤ inputs.get ⟨k, hk⟩ → mapped.getD k 0 = inputs.get ⟨k, hk⟩) ∧
        (inputs.get ⟨k, hk⟩ < 0 → ∃ i rm, i < cycle ∧
          exits.lookup i = some (inputs.get ⟨k, hk⟩, rm) ∧ mapped.getD k 0 = (rm : Int)) := by
  intro inputs
  induction inputs with
  | nil =>
    intro mapped h
    cases h
    exact ⟨rfl, fun k hk => absurd hk (by simp)⟩
  | cons inp rest ih =>
    intro mapped h
    simp only [find_inputs] at h
    split at h
    · rename_i hpos
      cases hrest : find_inputs exits cycle rest with
      | none => rw [hrest] at h; exact Option.noConfusion h
      | some ms =>
        rw [hrest] at h
        cases h
        obtain ⟨hlen, hspec⟩ := ih hrest
        refine ⟨by simp [hlen], ?_⟩
        intro k hk
        cases k with
        | zero =>
          exact ⟨fun _ => rfl, fun hneg => absurd (show inp < 0 from hneg) (by omega)⟩
        | succ m =>
          have hm : m < rest.length := by simpa using hk
          exact hspec m hm
    · rename_i hneg
      split at h
      · rename_i rm hfe
        cases hrest : find_inputs exits cycle rest with
        | none => rw [hrest] at h; exact Option.noConfusion h
        | some ms =>
          rw [hrest] at h
          cases h
          obtain ⟨hlen, hspec⟩ := ih hrest
          obtain ⟨i, hi, hlook⟩ := findExit_some hfe
          refine ⟨by simp [hlen], ?_⟩
          intro k hk
          cases k with
          | zero => exact ⟨fun hpos => absurd hpos hneg, fun _ => ⟨i, rm, hi, hlook, rfl⟩⟩
          | succ m =>
            have hm : m < rest.length := by simpa using hk
            exact hspec m hm
      · exact Option.noConfusion h

/-- C1: whenever the scheduler places an instruction (a successful
`schedule_one` at issue cycle `len(output)`), each virtual (negative)
input operand is resolved through an Exit Map entry at a cycle strictly
before — hence at most — the issue cycle, the resolved physical register
is the one that entry wrote, the entry is still present after the step,
and Exit Map entries persist through the rest of the scheduling loop and
through the final padding, so the hazard-freedom holds with respect to the
final Exit Map. -/
theorem c1_hazard_freedom :
    (∀ s isn s', schedule_one s isn = .ok (some s') →
      ∃ mapped, find_inputs s.exits s.output.length isn.inputs = some mapped ∧
        s'.output = s.output ++ [mkScheduled isn mapped] ∧
        ∀ k (hk : k < isn.inputs.length), isn.inputs.get ⟨k, hk⟩ < 0 →
          ∃ i rm, i < s.output.length ∧
            s.exits.lookup i = some (isn.inputs.get ⟨k, hk⟩, rm) ∧
            s'.exits.lookup i = some (isn.inputs.get ⟨k, hk⟩, rm) ∧
            mapped.getD k 0 = (rm : Int)) ∧
    (∀ fuel s s', scheduleLoop fuel s = .ok (some s') →
      ∀ i v, s.exits.lookup i = some v → s'.exits.lookup i = some v) ∧
    (∀ s s', schedulePad s = .ok s' → s'.exits = s.exits) := by
  refine ⟨?_, scheduleLoop_exits_mono, ?_⟩
  · intro s isn s' h
    obtain ⟨mapped, hfi, hrem, hout, hex⟩ := schedule_one_some h
    obtain ⟨hlen, hspec⟩ := find_inputs_spec hfi
    refine ⟨mapped, hfi, hout, ?_⟩
    intro k hk hneg
    obtain ⟨i, rm, hi, hlook, hmap⟩ := (hspec k hk).2 hneg
    exact ⟨i, rm, hi, hlook, schedule_one_exits_mono h i _ hlook, hmap⟩
  · intro s s' h
    simp only [schedulePad] at h
    split at h
    · exact Except.noConfusion h
    · cases h
      rfl

/-- Witness for `c1_hazard_freedom`: scheduling the multiply of
`bodySimple` at cycle 4, whose virtual input -2 retired at cycle 3 into
register 4; and persistence of the add's Exit Map entry through the rest
of the run. -/
theorem c1_hazard_freedom_witness :
    (∃ mapped, find_inputs schedStateW.exits schedStateW.output.length mulIsnW.inputs =
        some mapped ∧
      schedStateW2.output = schedStateW.output ++ [mkScheduled mulIsnW mapped] ∧
      ∀ k (hk : k < mulIsnW.inputs.length), mulIsnW.inputs.get ⟨k, hk⟩ < 0 →
        ∃ i rm, i < schedStateW.output.length ∧
          schedStateW.exits.lookup i = some (mulIsnW.inputs.get ⟨k, hk⟩, rm) ∧
          schedStateW2.exits.lookup i = some (mulIsnW.inputs.get ⟨k, hk⟩, rm) ∧
          mapped.getD k 0 = (rm : Int)) ∧
    schedFinalW.exits.lookup 1 = some (-1, 3) :=
  ⟨c1_hazard_freedom.1 schedStateW mulIsnW schedStateW2 (by decide),
   c1_hazard_freedom.2.1 5 schedStateW schedFinalW (by decide) 1 (-1, 3) (by decide)⟩

/-! ### C3: single retirement port -/

/-- C3: the Exit Map never has two entries for one cycle.  A candidate
instruction whose computed retirement cycle is already claimed is deferred
(`schedule_one` returns the `False` case with the state untouched, so the
cycle gets a no-op or another instruction instead); the Exit Map keys stay
duplicate-free through every run of the scheduling loop; and an entry, once
written, is never overwritten during the run. -/
theorem c3_single_retirement :
    (∀ s isn mapped o rest lat,
      find_inputs s.exits s.output.length isn.inputs = some mapped →
      isn.outputs = o :: rest →
      get_instruction_latency s.processor isn = some lat →
      (s.exits.lookup (s.output.length + lat)).isSome = true →
      schedule_one s isn = .ok none) ∧
    (∀ fuel s s', scheduleLoop fuel s = .ok (some s') →
      (s.exits.map Prod.fst).Nodup → (s'.exits.map Prod.fst).Nodup) ∧
    (∀ fuel s s' i v, scheduleLoop fuel s = .ok (some s') →
      s.exits.lookup i = some v → s'.exits.lookup i = some v) := by
  refine ⟨?_, scheduleLoop_keys_nodup,
    fun fuel s s' i v h hv => scheduleLoop_exits_mono fuel s s' h i v hv⟩
  intro s isn mapped o rest lat hfi houts hlat hsome
  simp [schedule_one, hfi, houts, hlat, hsome]

/-- Witness for `c3_single_retirement`: an add whose retirement cycle 2 is
already claimed in `schedStateC` is deferred; and the keys of the Exit Map
of the `bodySimple` run stay duplicate-free. -/
theorem c3_single_retirement_witness :
    schedule_one schedStateC addIsnC = .ok none ∧
    (schedFinalW.exits.map Prod.fst).Nodup ∧
    schedFinalW.exits.lookup 3 = some (-2, 4) :=
  ⟨c3_single_retirement.1 schedStateC addIsnC [] (-9) [] 2 (by decide) rfl rfl (by decide),
   c3_single_retirement.2.1 5 schedStateW schedFinalW (by decide) (by decide),
   c3_single_retirement.2.2 5 schedStateW schedFinalW 3 (-2, 4) (by decide) (by decide)⟩

/-! ### C8: scheduler termination -/

theorem InvList_mono : ∀ (l : List Isn) (R R' : Int → Prop), (∀ v, R v → R' v) →
    InvList R l → InvList R' l := by
  intro l
  induction l with
  | nil => intro R R' h hi; trivial
  | cons isn rest ih =>
    intro R R' h hi
    obtain ⟨h1, h2⟩ := hi
    exact ⟨fun inp hin hneg => h _ (h1 inp hin hneg),
      ih _ _ (fun v hv => hv.elim (fun a => Or.inl (h v a)) Or.inr) h2⟩

theorem InvList_erase : ∀ (l : List Isn) (a : Isn) (R R' : Int → Prop),
    (∀ v, R v → R' v) → (∀ v ∈ a.outputs, R' v) →
    InvList R l → InvList R' (l.erase a) := by
  intro l
  induction l with
  | nil => intro a R R' h1 h2 hi; trivial
  | cons isn rest ih =>
    intro a R R' h1 h2 hi
    obtain ⟨hh, ht⟩ := hi
    rw [List.erase_cons]
    split
    · rename_i heq
      have hisna : isn = a := eq_of_beq heq
      exact InvList_mono rest _ _
        (fun v hv => hv.elim (h1 v) (fun hvout => h2 v (hisna ▸ hvout))) ht
    · exact ⟨fun inp hin hneg => h1 _ (hh inp hin hneg),
        ih a _ _ (fun v hv => hv.elim (fun x => Or.inl (h1 v x)) Or.inr)
          (fun v hv => Or.inl (h2 v hv)) ht⟩

theorem producedFromB_invList : ∀ (l : List Isn) (avail : List Int) (R : Int → Prop),
    producedFromB avail l = true → (∀ v ∈ avail, R v) → InvList R l := by
  intro l
  induction l with
  | nil => intro avail R h hR; trivial
  | cons isn rest ih =>
    intro avail R h hR
    simp only [producedFromB, Bool.and_eq_true, List.all_eq_true] at h
    obtain ⟨h1, h2⟩ := h
    refine ⟨?_, ?_⟩
    · intro inp hin hneg
      have hd := h1 inp hin
      rw [Bool.or_eq_true, decide_eq_true_eq] at hd
      rcases hd with hpos | hmem
      · omega
      · exact hR inp (by simpa using hmem)
    · exact ih (avail ++ isn.outputs) _ h2 (fun v hv =>
        (List.mem_append.mp hv).elim (fun h => Or.inl (hR v h)) Or.inr)

theorem le_foldl_max (l : List Nat) : ∀ i : Nat, i ≤ l.foldl max i := by
  induction l with
  | nil => intro i; exact le_refl i
  | cons x xs ih => intro i; exact le_trans (le_max_left i x) (ih (max i x))

theorem mem_le_foldl_max (l : List Nat) : ∀ (i c : Nat), c ∈ l → c ≤ l.foldl max i := by
  induction l with
  | nil => intro i c h; simp at h
  | cons x xs ih =>
    intro i c h
    rcases List.mem_cons.mp h with rfl | h'
    · exact le_trans (le_max_right i c) (le_foldl_max xs (max i c))
    · exact ih (max i x) c h'

theorem lookup_lt_keyBound {exits : List (Nat × Int × Nat)} {c : Nat} {v : Int × Nat}
    (h : exits.lookup c = some v) : c < keyBound exits := by
  have hmem : c ∈ exits.map Prod.fst :=
    List.mem_map.mpr ⟨(c, v), lookup_mem h, rfl⟩
  have := mem_le_foldl_max (exits.map Prod.fst) 0 c hmem
  unfold keyBound
  omega

theorem lookup_none_of_keyBound_le {exits : List (Nat × Int × Nat)} {k : Nat}
    (h : keyBound exits ≤ k) : exits.lookup k = none := by
  cases hl : exits.lookup k with
  | none => rfl
  | some v => exact absurd (lookup_lt_keyBound hl) (by omega)

theorem SchedInv_head {s : SchedState} {isn : Isn} {rest : List Isn}
    (hs : s.remaining = isn :: rest) (hinv : SchedInv s) :
    ∀ inp ∈ isn.inputs, inp < 0 → Rex s.exits inp := by
  unfold SchedInv at hinv
  rw [hs] at hinv
  exact hinv.1

theorem findExit_isSome {exits : List (Nat × Int × Nat)} {cycle : Nat} {inp : Int}
    (h : ∃ c r, exits.lookup c = some (inp, r) ∧ c < cycle) :
    (findExit exits cycle inp).isSome = true := by
  obtain ⟨c, r, hl, hc⟩ := h
  cases hfe : findExit exits cycle inp with
  | some _ => rfl
  | none =>
    exfalso
    unfold findExit at hfe
    rw [List.findSome?_eq_none_iff] at hfe
    have := hfe c (List.mem_range.mpr hc)
    rw [hl] at this
    simp at this

theorem find_inputs_isSome : ∀ (inputs : List Int) (exits : List (Nat × Int × Nat))
    (cycle : Nat),
    (∀ inp ∈ inputs, inp < 0 → ∃ c r, exits.lookup c = some (inp, r) ∧ c < cycle) →
    ∃ mapped, find_inputs exits cycle inputs = some mapped := by
  intro inputs
  induction inputs with
  | nil => intro exits cycle h; exact ⟨[], rfl⟩
  | cons inp rest ih =>
    intro exits cycle h
    obtain ⟨ms, hms⟩ := ih exits cycle (fun i hi hneg => h i (List.mem_cons_of_mem _ hi) hneg)
    simp only [find_inputs]
    split
    · exact ⟨inp :: ms, by rw [hms]; rfl⟩
    · rename_i hneg
      have hex := h inp (List.mem_cons_self _ _) (by omega)
      cases hfe : findExit exits cycle inp with
      | none =>
        have hs := findExit_isSome hex
        rw [hfe] at hs
        exact Bool.noConfusion hs
      | some rm => exact ⟨(rm : Int) :: ms, by rw [hms]; rfl⟩

theorem schedule_one_ne_none {s : SchedState} {isn : Isn}
    (hready : ∃ mapped, find_inputs s.exits s.output.length isn.inputs = some mapped)
    (hfresh : ∀ lat, get_instruction_latency s.processor isn = some lat →
      s.exits.lookup (s.output.length + lat) = none) :
    schedule_one s isn ≠ .ok none := by
  obtain ⟨mapped, hfi⟩ := hready
  cases houts : isn.outputs with
  | nil =>
    cases hraf : removeAndFree s isn mapped with
    | error e => simp [schedule_one, hfi, houts, hraf]
    | ok t => simp [schedule_one, hfi, houts, hraf]
  | cons o outRest =>
    cases hlat : get_instruction_latency s.processor isn with
    | none => simp [schedule_one, hfi, houts, hlat]
    | some lat =>
      have hl := hfresh lat hlat
      cases hraf : removeAndFree s isn mapped with
      | error e => simp [schedule_one, hfi, houts, hlat, hl, hraf]
      | ok t =>
        cases outRest with
        | nil =>
          cases halloc : allocate_register t with
          | error e => simp [schedule_one, hfi, houts, hlat, hl, hraf, halloc]
          | ok rt => simp [schedule_one, hfi, houts, hlat, hl, hraf, halloc]
        | cons o2 rest2 => simp [schedule_one, hfi, houts, hlat, hl, hraf]

theorem tryRemaining_cons_ne_none {s : SchedState} {isn : Isn} {rest : List Isn}
    (h : schedule_one s isn ≠ .ok none) :
    tryRemaining s (isn :: rest) ≠ .ok none := by
  cases hso : schedule_one s isn with
  | error e => simp [tryRemaining, hso]
  | ok o =>
    cases o with
    | none => exact absurd hso h
    | some s1 => simp [tryRemaining, hso]

theorem schedule_one_inv {s : SchedState} {isn : Isn} {s' : SchedState}
    (h : schedule_one s isn = .ok (some s')) (hinv : SchedInv s) : SchedInv s' := by
  obtain ⟨mapped, hfi, hrem, hout, hex⟩ := schedule_one_some h
  unfold SchedInv
  rw [hrem]
  rcases hex with ⟨houts0, he⟩ | ⟨o, lat, reg, houts1, hlat, hnone, he⟩
  · exact InvList_erase s.remaining isn _ _ (fun v hv => by rw [he]; exact hv)
      (by rw [houts0]; intro v hv; exact absurd hv (List.not_mem_nil v)) hinv
  · refine InvList_erase s.remaining isn _ _ ?_ ?_ hinv
    · intro v hv
      rw [he]
      obtain ⟨c, r, hl⟩ := hv
      refine ⟨c, r, ?_⟩
      rw [List.lookup_cons]
      have hne : (c == s.output.length + lat) = false := by
        cases hbeq : c == s.output.length + lat
        · rfl
        · rw [show c = s.output.length + lat from eq_of_beq hbeq, hnone] at hl
          exact Option.noConfusion hl
      rw [hne]
      exact hl
    · rw [houts1]
      intro v hv
      rw [List.mem_singleton] at hv
      subst hv
      rw [he]
      exact ⟨s.output.length + lat, reg, by rw [List.lookup_cons]; simp⟩

theorem stepCycle_progress {s : SchedState} (hinv : SchedInv s)
    {isn : Isn} {rest : List Isn} (hrem : s.remaining = isn :: rest)
    (hcy : keyBound s.exits ≤ s.output.length) :
    (∃ e, stepCycle s = .error e) ∨
      (∃ s', stepCycle s = .ok s' ∧ s'.remaining.length < s.remaining.length ∧ SchedInv s') := by
  have hready : ∃ mapped, find_inputs s.exits s.output.length isn.inputs = some mapped := by
    apply find_inputs_isSome
    intro inp hin hneg
    obtain ⟨c, r, hl⟩ := SchedInv_head hrem hinv inp hin hneg
    exact ⟨c, r, hl, by have := lookup_lt_keyBound hl; omega⟩
  have hfresh : ∀ lat, get_instruction_latency s.processor isn = some lat →
      s.exits.lookup (s.output.length + lat) = none := by
    intro lat _
    exact lookup_none_of_keyBound_le (by omega)
  have hdec : tryRemaining s (isn :: rest) ≠ .ok none :=
    tryRemaining_cons_ne_none (schedule_one_ne_none hready hfresh)
  cases htr : tryRemaining s s.remaining with
  | error e => exact Or.inl ⟨e, by simp [stepCycle, htr]⟩
  | ok o =>
    cases o with
    | none =>
      rw [hrem] at htr
      exact absurd htr hdec
    | some s1 =>
      obtain ⟨isn', hmem', hso⟩ := tryRemaining_some htr
      refine Or.inr ⟨s1, by simp [stepCycle, htr], ?_, schedule_one_inv hso hinv⟩
      obtain ⟨mapped, _, hrem1, _, _⟩ := schedule_one_some hso
      rw [hrem1, List.length_erase_of_mem hmem']
      have hpos : 0 < s.remaining.length := by rw [hrem]; simp
      omega

theorem scheduleLoop_succ_err {s : SchedState} {e : Err} {fuel : Nat}
    (hrem : s.remaining.isEmpty = false) (hstep : stepCycle s = .error e) :
    scheduleLoop (fuel + 1) s ≠ .ok none := by
  simp only [scheduleLoop, hrem, Bool.false_eq_true, if_false, hstep]
  simp

theorem scheduleLoop_succ_step {s s1 : SchedState} {fuel : Nat}
    (hrem : s.remaining.isEmpty = false) (hstep : stepCycle s = .ok s1)
    (h : scheduleLoop fuel s1 ≠ .ok none) : scheduleLoop (fuel + 1) s ≠ .ok none := by
  simp only [scheduleLoop, hrem, Bool.false_eq_true, if_false, hstep]
  exact h

theorem scheduleLoop_empty_ne {s : SchedState} (hrem : s.remaining = []) :
    scheduleLoop 0 s ≠ .ok none := by
  simp [scheduleLoop, hrem]

theorem scheduleLoop_term_aux : ∀ n : Nat, ∀ s : SchedState, SchedInv s →
    s.remaining.length ≤ n → ∃ fuel, scheduleLoop fuel s ≠ .ok none := by
  intro n
  induction n with
  | zero =>
    intro s hinv hlen
    have hemp : s.remaining = [] := List.length_eq_zero.mp (Nat.le_antisymm hlen (Nat.zero_le _))
    exact ⟨0, scheduleLoop_empty_ne hemp⟩
  | succ n ih =>
    intro s hinv hlen
    have aux : ∀ g : Nat, ∀ s : SchedState, SchedInv s → s.remaining.length ≤ n + 1 →
        keyBound s.exits ≤ s.output.length + g → ∃ fuel, scheduleLoop fuel s ≠ .ok none := by
      intro g
      induction g with
      | zero =>
        intro s hinv1 hlen1 hgap
        cases hrem : s.remaining with
        | nil => exact ⟨0, scheduleLoop_empty_ne hrem⟩
        | cons isn rest =>
          have hrb : s.remaining.isEmpty = false := by rw [hrem]; rfl
          rcases stepCycle_progress hinv1 hrem (by omega) with ⟨e, he⟩ | ⟨s1, hs1, hlt, hinv2⟩
          · exact ⟨1, scheduleLoop_succ_err hrb he⟩
          · have hlen2 : s1.remaining.length ≤ n := by
              rw [hrem] at hlt hlen1
              simp at hlt hlen1
              omega
            obtain ⟨fuel1, hf1⟩ := ih s1 hinv2 hlen2
            exact ⟨fuel1 + 1, scheduleLoop_succ_step hrb hs1 hf1⟩
      | succ g ihg =>
        intro s hinv1 hlen1 hgap
        cases hrem : s.remaining with
        | nil => exact ⟨0, scheduleLoop_empty_ne hrem⟩
        | cons isn rest =>
          have hrb : s.remaining.isEmpty = false := by rw [hrem]; rfl
          cases hstep : stepCycle s with
          | error e => exact ⟨1, scheduleLoop_succ_err hrb hstep⟩
          | ok s1 =>
            rcases stepCycle_cases hstep with hnop | ⟨isn', hmem', hso⟩
            · subst hnop
              have hinv2 : SchedInv { s with output := s.output ++ [nopIsn] } := hinv1
              have hgap2 : keyBound ({ s with output := s.output ++ [nopIsn] } :
                  SchedState).exits ≤
                  ({ s with output := s.output ++ [nopIsn] } : SchedState).output.length + g := by
                show keyBound s.exits ≤ (s.output ++ [nopIsn]).length + g
                rw [List.length_append]
                simp only [List.length_singleton]
                omega
              obtain ⟨fuel1, hf1⟩ := ihg _ hinv2 hlen1 hgap2
              exact ⟨fuel1 + 1, scheduleLoop_succ_step hrb hstep hf1⟩
            · have hinv2 := schedule_one_inv hso hinv1
              have hlt : s1.remaining.length < s.remaining.length := by
                obtain ⟨mapped, _, hrem1, _, _⟩ := schedule_one_some hso
                rw [hrem1, List.length_erase_of_mem hmem']
                have hpos : 0 < s.remaining.length := by rw [hrem]; simp
                omega
              have hlen2 : s1.remaining.length ≤ n := by
                rw [hrem] at hlt hlen1
                simp at hlt hlen1
                omega
              obtain ⟨fuel1, hf1⟩ := ih s1 hinv2 hlen2
              exact ⟨fuel1 + 1, scheduleLoop_succ_step hrb hstep hf1⟩
    exact aux (keyBound s.exits) s hinv hlen (by omega)

/-- C8: for every IR instruction list in which each virtual (negative)
input is produced by an earlier instruction of the list (as the builder
guarantees, together with SSA uniqueness of the outputs),
`Scheduler.schedule` terminates: the stall loop cannot run forever —
there is a fuel bound after which the fuelled loop has either emptied the
working set or escaped with a Python exception, so the defensive
StallExhaustion condition is unreachable. -/
theorem c8_scheduler_termination (p : Processor) (rd : Nat) (P : List Isn)
    (_hssa : (progOutputs P).Nodup)
    (hprod : producedFromB [] P = true) :
    ∃ fuel, runSchedule fuel (initScheduler p rd P) ≠ .ok none := by
  have hinv : SchedInv (initScheduler p rd P) :=
    producedFromB_invList P [] _ hprod (by simp)
  obtain ⟨fuel, hf⟩ := scheduleLoop_term_aux P.length (initScheduler p rd P) hinv (le_refl _)
  refine ⟨fuel, ?_⟩
  intro hc
  unfold runSchedule at hc
  cases hl : scheduleLoop fuel (initScheduler p rd P) with
  | error e => rw [hl] at hc; exact Except.noConfusion hc
  | ok o =>
    cases o with
    | none => exact hf hl
    | some s' =>
      rw [hl] at hc
      have hc' : (match schedulePad s' with
          | Except.error e => (Except.error e : Except Err (Option SchedState))
          | Except.ok s'' => Except.ok (some s'')) = Except.ok none := hc
      cases hp : schedulePad s' with
      | error e => rw [hp] at hc'; exact Except.noConfusion hc'
      | ok s'' => rw [hp] at hc'; simp at hc'

/-- Witness for `c8_scheduler_termination`: the IR of `return x` (an input
instruction producing -1, consumed by the output instruction) satisfies
both builder guarantees, and its scheduling loop terminates (here by the
register-allocation `ValueError`, which ends the Python loop just as an
emptied working set would). -/
theorem c8_scheduler_termination_witness :
    ∃ fuel, runSchedule fuel (initScheduler procDefault 0 astId.program) ≠ .ok none :=
  c8_scheduler_termination procDefault 0 astId.program (by decide) (by decide)
